import Mathlib

/-!
# Verification of the vectra-js RAG pipeline core

This file gives a shallow embedding, in Lean 4, of the pure computational
core of the vectra-js library (`src/core.js`, and the `DocumentProcessor`
shipped in `src/observability.js`), and proves properties of the retrieval,
fusion, context-planning, grounding, chunking and ingestion components.

Modelling conventions:
* JS strings are modelled as `List Char` (`Str`); `String.prototype.slice(0,n)`
  is `List.take n`, `slice(len-k)` is `List.drop (len-k)`.
* JS numbers appearing as scores or configuration are modelled as exact
  rationals (`ℚ`) or integers; the algorithms under study use them only
  through `+ - * / < =` on small values.
* JS truthiness of a config field is modelled explicitly: a numeric field is
  falsy exactly when it is `0`, a string when it is empty, an optional
  record when it is `none`.
* `Array.prototype.sort(cmp)` is stable (ES2019).  A stable sort by the
  comparator `scores[b] - scores[a]` produces exactly the list sorted by the
  lexicographic order «score descending, then original position ascending»,
  so it is embedded as `List.insertionSort` on position-tagged entries.
* External collaborators absent from the repository (the `uuid` npm package,
  the floating-point `Math.log2`-based entropy value, embedding backends and
  vector stores) enter as explicit function parameters ("oracles") of the
  embedded definitions; every theorem quantifies over them.
-/

set_option maxRecDepth 100000

namespace Vectra


/-- JS strings as lists of characters. -/
abbrev Str := List Char

/-! ## Data model

A retrieved document (`RetrievedDoc` of the spec): `content`, a
strategy-local `score`, and the metadata fields that the context planner,
snippet extractor and keyword boost read.  `metadata.section` is named
`sectionName` because `section` is a Lean keyword. -/

structure DocMeta where
  docTitle : Str := []
  sectionName : Str := []
  pageFrom : Nat := 0
  pageTo : Nat := 0
  summary : Option Str := none
  keywords : List Str := []
deriving DecidableEq

structure RDoc where
  content : Str
  score : ℚ := 0
  meta : DocMeta := {}
deriving DecidableEq

/-! ## Reciprocal Rank Fusion — `VectraClient.reciprocalRankFusion`, core.js 433-446

```js
reciprocalRankFusion(docLists, k = 60) {
    const scores = {};
    const contentMap = {};
    docLists.forEach(list => {
        list.forEach((doc, rank) => {
            if (!contentMap[doc.content]) contentMap[doc.content] = doc;
            if (!scores[doc.content]) scores[doc.content] = 0;
            scores[doc.content] += 1 / (k + rank + 1);
        });
    });
    return Object.keys(scores)
      .sort((a, b) => scores[b] - scores[a])
      .map(content => contentMap[content]);
}
```

JS object keys enumerate in insertion order, i.e. in the order contents are
first discovered scanning the lists in order and each list front to back. -/

/-- All contents in discovery scan order (lists in order, each front to back). -/
def rrfContents (docLists : List (List RDoc)) : List Str :=
  docLists.flatMap (fun l => l.map (·.content))

/-- Insertion into a JS object key list: a repeated key keeps its place. -/
def insertKey (ks : List Str) (c : Str) : List Str :=
  if c ∈ ks then ks else ks ++ [c]

/-- `Object.keys(scores)`: contents in first-discovery order, no duplicates. -/
def rrfKeys (docLists : List (List RDoc)) : List Str :=
  (rrfContents docLists).foldl insertKey []

/-- Score contribution `1 / (k + rank + 1)` of one ranked list to `scores[key]`,
with ranks starting at offset `m`. -/
def scoreFrom (key : Str) (k : ℚ) : ℚ → List RDoc → ℚ
  | _, [] => 0
  | m, d :: t => (if d.content = key then 1 / (k + m + 1) else 0) + scoreFrom key k (m + 1) t

/-- Score contribution of one ranked list (ranks from 0). -/
def listScore (key : Str) (k : ℚ) (l : List RDoc) : ℚ := scoreFrom key k 0 l

/-- `scores[key]` after the double loop: the fused score of a content. -/
def rrfScore (docLists : List (List RDoc)) (k : ℚ) (key : Str) : ℚ :=
  (docLists.map (listScore key k)).sum

/-- `contentMap[key]`: the first document discovered with this content. -/
def firstDocFor (docLists : List (List RDoc)) (key : Str) : Option RDoc :=
  (docLists.flatMap id).find? (fun d => decide (d.content = key))

/-- The order produced by the stable JS sort with comparator
`scores[b] - scores[a]`: score strictly greater first, ties kept in
discovery order.  `p.1` is the discovery position of key `p.2`. -/
def rrfRel (sc : Str → ℚ) (p q : ℕ × Str) : Prop :=
  sc q.2 < sc p.2 ∨ (sc p.2 = sc q.2 ∧ p.1 ≤ q.1)

instance rrfRelDecidable (sc : Str → ℚ) : DecidableRel (rrfRel sc) := fun p q => by
  unfold rrfRel; infer_instance

/-- `Object.keys(scores).sort((a, b) => scores[b] - scores[a])`. -/
def rrfSortedKeys (docLists : List (List RDoc)) (k : ℚ) : List Str :=
  (List.insertionSort (rrfRel (rrfScore docLists k)) (rrfKeys docLists).enum).map (·.2)

/-- The fused document list: sorted keys mapped through `contentMap`. -/
def reciprocalRankFusion (docLists : List (List RDoc)) (k : ℚ) : List RDoc :=
  (rrfSortedKeys docLists k).filterMap (firstDocFor docLists)

/-- Position of a content in the fused output (= length when absent). -/
def fusedRank (docLists : List (List RDoc)) (k : ℚ) (cont : Str) : ℕ :=
  (reciprocalRankFusion docLists k).findIdx (fun d => decide (d.content = cont))

/-- «Entry `q` comes strictly before the entry of key `p0`» in the fused
order: strictly higher score, or equal score and earlier discovery. -/
def sBefore (sc : Str → ℚ) (p0 q : ℕ × Str) : Prop :=
  sc p0.2 < sc q.2 ∨ (sc q.2 = sc p0.2 ∧ q.1 < p0.1)

instance sBeforeDecidable (sc : Str → ℚ) (p0 q : ℕ × Str) : Decidable (sBefore sc p0 q) := by
  unfold sBefore; infer_instance

/-! ### Inserting a document at rank 0 of one input list -/

/-- `docLists` with `d` inserted at rank 0 of list `j`. -/
def insertAtHead (L : List (List RDoc)) (j : ℕ) (d : RDoc) : List (List RDoc) :=
  L.set j (d :: L.getD j [])

/-! ### The spec's RRF example -/

def exDoc1 : RDoc := ⟨['d','1'], 0, {}⟩

def exDoc2 : RDoc := ⟨['d','2'], 0, {}⟩

def exDoc3 : RDoc := ⟨['d','3'], 0, {}⟩

def exDoc4 : RDoc := ⟨['d','4'], 0, {}⟩

/-- The example lists `L1 = [d1,d2,d3]`, `L2 = [d2,d4]` of the spec. -/
def exLists : List (List RDoc) := [[exDoc1, exDoc2, exDoc3], [exDoc2, exDoc4]]

/-- Position of a content in first-discovery order. -/
def discoveryIdx (docLists : List (List RDoc)) (c : Str) : ℕ :=
  (rrfKeys docLists).findIdx (fun y => decide (y = c))

/-! ## Maximal Marginal Relevance — `VectraClient.mmrSelect`, core.js 448-500

```js
mmrSelect(candidates, k, mmrLambda) {
  if (!Array.isArray(candidates) || candidates.length === 0) return [];
  const kInt = Math.max(1, Number(k) || 1);
  const lam = Math.max(0, Math.min(1, Number(mmrLambda) || 0.5));
  const tokens = (text) => {
    const t = String(text || '').toLowerCase().match(/[a-z0-9]+/g) || [];
    return new Set(t.filter(x => x.length > 2));
  };
  const jaccard = (a, b) => { ... };
  const pool = candidates.map((d) => ({...d, _tokens, _rel})).sort((a, b) => b._rel - a._rel);
  const selected = []; const selectedTokens = [];
  const first = pool.shift(); selected.push(first); selectedTokens.push(first._tokens);
  while (pool.length > 0 && selected.length < kInt) {
    // argmax of lam * d._rel - (1 - lam) * max_{st} jaccard(d._tokens, st); first max wins
    ...
  }
  return selected.slice(0, kInt).map(({ _tokens, _rel, ...rest }) => rest);
}
```

`Number(x) || dflt` maps 0 (and a non-numeric value) to `dflt`. -/

/-- `x || dflt` on numbers: `0` is falsy. -/
def jsNumberOr (x dflt : ℚ) : ℚ := if x = 0 then dflt else x

def lowerStr (s : Str) : Str := s.map Char.toLower

def isLowerAlnum (c : Char) : Bool := decide (('a' ≤ c ∧ c ≤ 'z') ∨ ('0' ≤ c ∧ c ≤ '9'))

/-- Maximal runs of characters satisfying `p`, accumulator version (`cur` is
the current run, reversed). -/
def wordRunsGo (p : Char → Bool) : Str → Str → List Str
  | [], cur => if cur.isEmpty then [] else [cur.reverse]
  | c :: rest, cur =>
    if p c then wordRunsGo p rest (c :: cur)
    else if cur.isEmpty then wordRunsGo p rest []
    else cur.reverse :: wordRunsGo p rest []

/-- Maximal runs of characters satisfying `p` (the pieces matched by a
`/[...]+/g` regex). -/
def wordRuns (p : Char → Bool) (s : Str) : List Str := wordRunsGo p s []

/-- First-occurrence deduplication (`new Set(...)` iteration order). -/
def dedupKeys (l : List Str) : List Str := l.foldl insertKey []

/-- `tokens(text)`: lowercased alphanumeric runs of length > 2, as a set. -/
def jsTokens (text : Str) : List Str :=
  dedupKeys ((wordRuns isLowerAlnum (lowerStr text)).filter (fun x => x.length > 2))

/-- `jaccard(a, b)` of core.js 458-465 on deduplicated token lists. -/
def jaccard (a b : List Str) : ℚ :=
  if a.length = 0 ∨ b.length = 0 then 0
  else
    let inter : ℕ := a.countP (fun x => decide (x ∈ b))
    if inter = 0 then 0
    else
      let union : ℕ := a.length + b.length - inter
      if union = 0 then 0 else (inter : ℚ) / (union : ℚ)

structure MmrEntry where
  doc : RDoc
  toks : List Str
  rel : ℚ
deriving DecidableEq

instance : Inhabited MmrEntry := ⟨⟨⟨[], 0, {}⟩, [], 0⟩⟩

/-- Stable sort of the pool by `_rel` descending (comparator `b._rel - a._rel`),
embedded like the RRF sort: position-tagged insertion sort. -/
def mmrPoolRel (p q : ℕ × MmrEntry) : Prop :=
  q.2.rel < p.2.rel ∨ (p.2.rel = q.2.rel ∧ p.1 ≤ q.1)

instance mmrPoolRelDecidable : DecidableRel mmrPoolRel := fun p q => by
  unfold mmrPoolRel; infer_instance

def mmrPool (candidates : List RDoc) : List MmrEntry :=
  (List.insertionSort mmrPoolRel
    (candidates.map (fun d => MmrEntry.mk d (jsTokens d.content) d.score)).enum).map (·.2)

/-- The MMR objective `lam * d._rel - (1 - lam) * max_{st} jaccard(d._tokens, st)`. -/
def mmrObjective (lam : ℚ) (selectedToks : List (List Str)) (e : MmrEntry) : ℚ :=
  lam * e.rel - (1 - lam) * (selectedToks.foldl (fun acc st => max acc (jaccard e.toks st)) 0)

/-- The argmax loop: first strict improvement wins, so the first index
attaining the maximum is chosen. Returns `(bestScore, bestIdx)`. -/
def bestIdxGo (score : MmrEntry → ℚ) : List MmrEntry → ℕ → Option (ℚ × ℕ) → Option (ℚ × ℕ)
  | [], _, best => best
  | e :: rest, i, best =>
    match best with
    | none => bestIdxGo score rest (i + 1) (some (score e, i))
    | some (bs, bi) =>
      if bs < score e then bestIdxGo score rest (i + 1) (some (score e, i))
      else bestIdxGo score rest (i + 1) (some (bs, bi))

/-- The `while` loop of core.js 480-497.  The fuel is the initial pool size:
each iteration splices exactly one entry out of the pool, so the loop runs at
most `pool.length` times. -/
def mmrLoop (lam : ℚ) (kInt : ℕ) : ℕ → List MmrEntry → List MmrEntry → List (List Str) →
    List MmrEntry
  | 0, _, selected, _ => selected
  | fuel + 1, pool, selected, selectedToks =>
    if pool.length ≠ 0 ∧ selected.length < kInt then
      match bestIdxGo (mmrObjective lam selectedToks) pool 0 none with
      | none => selected
      | some (_, bi) =>
        let picked := pool.getD bi default
        mmrLoop lam kInt fuel (pool.eraseIdx bi) (selected ++ [picked])
          (selectedToks ++ [picked.toks])
    else selected

/-- `mmrSelect` with the clamped λ already computed (core.js 452-499). -/
def mmrSelectLam (candidates : List RDoc) (kInt : ℕ) (lam : ℚ) : List RDoc :=
  match mmrPool candidates with
  | [] => []
  | first :: pool =>
    ((mmrLoop lam kInt pool.length pool [first] [first.toks]).take kInt).map (·.doc)

/-- `lam = Math.max(0, Math.min(1, Number(mmrLambda) || 0.5))` (core.js 451). -/
def mmrClampLam (mmrLambda : ℚ) : ℚ := max 0 (min 1 (jsNumberOr mmrLambda (1/2)))

/-- `VectraClient.mmrSelect(candidates, k, mmrLambda)`; `kInt = max(1, k || 1)`
collapses to `max 1 k` for natural `k`. -/
def mmrSelect (candidates : List RDoc) (k : ℕ) (mmrLambda : ℚ) : List RDoc :=
  mmrSelectLam candidates (max 1 k) (mmrClampLam mmrLambda)

/-- core.js 545: `const lam = Number(this.config.retrieval?.mmrLambda) || 0.5`;
an absent retrieval config or `mmrLambda` gives `NaN`, which is falsy. -/
def queryMmrLambda (mmrLambda : Option ℚ) : ℚ :=
  match mmrLambda with
  | none => 1/2
  | some x => jsNumberOr x (1/2)

/-- The λ that actually multiplies the MMR objective for a configured
`retrieval.mmrLambda`: the queryRAG default composed with mmrSelect's clamp. -/
def effectiveMmrLambda (mmrLambda : Option ℚ) : ℚ :=
  mmrClampLam (queryMmrLambda mmrLambda)

/-! ## Context planner — `VectraClient.tokenEstimate` and
`VectraClient.buildContextParts`, core.js 390-413

```js
tokenEstimate(text) {
  const len = text ? text.length : 0;
  return Math.ceil(len / 4);
}

buildContextParts(docs, query) {
  const budget = (this.config.queryPlanning && this.config.queryPlanning.tokenBudget)
    ? this.config.queryPlanning.tokenBudget : 2048;
  const preferSumm = (this.config.queryPlanning && this.config.queryPlanning.preferSummariesBelow)
    ? this.config.queryPlanning.preferSummariesBelow : 1024;
  const parts = [];
  let used = 0;
  for (const d of docs) {
    const t = d.metadata?.docTitle || '';
    const sec = d.metadata?.section || '';
    const pages = (d.metadata?.pageFrom && d.metadata?.pageTo)
      ? `pages ${d.metadata.pageFrom}-${d.metadata.pageTo}` : '';
    const sum = d.metadata?.summary ? d.metadata.summary : d.content.slice(0, 800);
    const chosen = (this.tokenEstimate(sum) <= preferSumm) ? sum : d.content.slice(0, 1200);
    const part = `${t} ${sec} ${pages}\n${chosen}`;
    const est = this.tokenEstimate(part);
    if (used + est > budget) break;
    parts.push(part);
    used += est;
  }
  return parts;
}
```

Token budgets are modelled as naturals (a budget is a nonnegative token
count; an absent or zero configured value is falsy). -/

/-- `Math.ceil(len / 4)` on a natural length. -/
def tokenEstimate (text : Str) : ℕ := (text.length + 3) / 4

structure QueryPlanning where
  tokenBudget : ℕ := 0
  preferSummariesBelow : ℕ := 0
deriving DecidableEq

/-- `(qp && qp.tokenBudget) ? qp.tokenBudget : 2048`. -/
def effTokenBudget (qp : Option QueryPlanning) : ℕ :=
  match qp with
  | some q => if q.tokenBudget ≠ 0 then q.tokenBudget else 2048
  | none => 2048

/-- `(qp && qp.preferSummariesBelow) ? qp.preferSummariesBelow : 1024`. -/
def effPreferSumm (qp : Option QueryPlanning) : ℕ :=
  match qp with
  | some q => if q.preferSummariesBelow ≠ 0 then q.preferSummariesBelow else 1024
  | none => 1024

def natToStr (n : ℕ) : Str := (Nat.repr n).toList

/-- `` `pages ${pageFrom}-${pageTo}` `` when both are truthy, else `''`. -/
def pagesStr (m : DocMeta) : Str :=
  if m.pageFrom ≠ 0 ∧ m.pageTo ≠ 0 then
    ("pages ").toList ++ natToStr m.pageFrom ++ ['-'] ++ natToStr m.pageTo
  else []

/-- `` `${t} ${sec} ${pages}` `` — the shared header of context parts and
snippets (core.js 401-403 and 424-425). -/
def mkHeader (m : DocMeta) : Str :=
  m.docTitle ++ ' ' :: m.sectionName ++ ' ' :: pagesStr m

/-- `d.metadata?.summary ? d.metadata.summary : d.content.slice(0, 800)`. -/
def summaryCandidate (d : RDoc) : Str :=
  match d.meta.summary with
  | some s => if s ≠ [] then s else d.content.take 800
  | none => d.content.take 800

/-- `chosen`: the candidate if its estimate fits, else `content.slice(0,1200)`. -/
def chosenText (qp : Option QueryPlanning) (d : RDoc) : Str :=
  if tokenEstimate (summaryCandidate d) ≤ effPreferSumm qp then summaryCandidate d
  else d.content.take 1200

/-- One context part: `` `${t} ${sec} ${pages}\n${chosen}` ``. -/
def mkPart (qp : Option QueryPlanning) (d : RDoc) : Str :=
  mkHeader d.meta ++ '\n' :: chosenText qp d

/-- The planner loop (`for ... if (used + est > budget) break`). -/
def buildGo (qp : Option QueryPlanning) (budget : ℕ) : List RDoc → ℕ → List Str
  | [], _ => []
  | d :: rest, used =>
    let part := mkPart qp d
    let est := tokenEstimate part
    if budget < used + est then []
    else part :: buildGo qp budget rest (used + est)

/-- `VectraClient.buildContextParts(docs, query)` (`query` is unused, as in
the source). -/
def buildContextParts (qp : Option QueryPlanning) (docs : List RDoc) (query : Str) : List Str :=
  buildGo qp (effTokenBudget qp) docs 0

instance : Inhabited RDoc := ⟨⟨[], 0, {}⟩⟩

/-- A document whose part fits any default budget. -/
def exDocC7 : RDoc := ⟨("hi").toList, 0, {}⟩

def exDocC10 : RDoc := ⟨("Short text.").toList, 0, {}⟩

/-! ## Extractive grounding — `VectraClient.extractSnippets` (core.js
415-431) and the grounding block of `queryRAG` (core.js 579-589)

```js
extractSnippets(docs, query, maxSnippets) {
  const terms = query.toLowerCase().split(/\W+/).filter(t=>t.length>2);
  const out = [];
  for (const d of docs) {
    const sents = d.content.split(/(?<=[.!?])\s+/);
    for (const s of sents) {
      const l = s.toLowerCase();
      const score = terms.reduce((acc,t)=> acc + (l.includes(t) ? 1 : 0), 0);
      if (score > 0) {
        const pages = ...;
        out.push(`${d.metadata?.docTitle || ''} ${d.metadata?.section || ''} ${pages}\n${s}`);
        if (out.length >= maxSnippets) return out;
      }
    }
  }
  return out;
}

// queryRAG:
const contextParts = this.buildContextParts(docs, query);
if (this.config.grounding && this.config.grounding.enabled) {
  const maxSnippets = this.config.grounding.maxSnippets || 3;
  const snippets = this.extractSnippets(docs, query, maxSnippets);
  if (this.config.grounding.strict) {
    contextParts.splice(0, contextParts.length, ...snippets);
  } else {
    contextParts.push(...snippets);
  }
}
const context = contextParts.join('\n---\n');
```
-/

def isWordChar (c : Char) : Bool :=
  decide (('a' ≤ c ∧ c ≤ 'z') ∨ ('A' ≤ c ∧ c ≤ 'Z') ∨ ('0' ≤ c ∧ c ≤ '9') ∨ c = '_')

/-- `query.toLowerCase().split(/\W+/).filter(t => t.length > 2)`: after the
length filter this equals the word runs of length > 2. -/
def queryTerms (query : Str) : List Str :=
  (wordRuns isWordChar (lowerStr query)).filter (fun t => t.length > 2)

/-- The characters of JS `\s` that occur in the ASCII range. -/
def isWS (c : Char) : Bool :=
  decide (c = ' ' ∨ c = '\t' ∨ c = '\n' ∨ c = '\r' ∨ c = '\x0b' ∨ c = '\x0c')

def isSentEnd (c : Char) : Bool := decide (c = '.' ∨ c = '!' ∨ c = '?')

def lastIsSentEnd (cur : Str) : Bool :=
  match cur.getLast? with
  | some l => isSentEnd l
  | none => false

/-- `content.split(/(?<=[.!?])\s+/)`: a maximal whitespace run whose first
character is immediately preceded by `.`, `!` or `?` separates sentences.
The Bool flag is true while the separator's whitespace run is being
consumed (the current sentence is then empty). -/
def splitSentencesGo : Str → Str → Bool → List Str
  | [], cur, _ => [cur]
  | c :: rest, cur, skipping =>
    if skipping then
      if isWS c then splitSentencesGo rest [] true
      else splitSentencesGo rest [c] false
    else if isWS c && lastIsSentEnd cur then
      cur :: splitSentencesGo rest [] true
    else splitSentencesGo rest (cur ++ [c]) false

def splitSentences (s : Str) : List Str := splitSentencesGo s [] false

/-- `hay.includes(sub)`: contiguous-substring containment. -/
def strStarts : Str → Str → Bool
  | _, [] => true
  | [], _ :: _ => false
  | a :: h, b :: s => a == b && strStarts h s

def strHasSub : Str → Str → Bool
  | [], sub => strStarts [] sub
  | a :: h, sub => strStarts (a :: h) sub || strHasSub h sub

/-- `terms.reduce((acc,t) => acc + (l.includes(t) ? 1 : 0), 0)` with
`l = s.toLowerCase()`. -/
def sentenceScore (terms : List Str) (s : Str) : ℕ :=
  terms.countP (fun t => strHasSub (lowerStr s) t)

/-- Inner sentence loop of `extractSnippets`; the Bool is true when
`out.length >= maxSnippets` triggered the early `return out`. -/
def extractSents (terms : List Str) (maxS : ℕ) (m : DocMeta) :
    List Str → List Str → List Str × Bool
  | [], out => (out, false)
  | s :: ss, out =>
    if 0 < sentenceScore terms s then
      let out2 := out ++ [mkHeader m ++ '\n' :: s]
      if maxS ≤ out2.length then (out2, true)
      else extractSents terms maxS m ss out2
    else extractSents terms maxS m ss out

/-- Outer document loop of `extractSnippets`. -/
def extractDocs (terms : List Str) (maxS : ℕ) : List RDoc → List Str → List Str
  | [], out => out
  | d :: ds, out =>
    match extractSents terms maxS d.meta (splitSentences d.content) out with
    | (out2, true) => out2
    | (out2, false) => extractDocs terms maxS ds out2

def extractSnippets (docs : List RDoc) (query : Str) (maxSnippets : ℕ) : List Str :=
  extractDocs (queryTerms query) maxSnippets docs []

structure GroundingCfg where
  enabled : Bool := false
  strict : Bool := false
  maxSnippets : ℕ := 0
deriving DecidableEq

/-- `this.config.grounding.maxSnippets || 3`. -/
def effMaxSnippets (g : GroundingCfg) : ℕ :=
  if g.maxSnippets ≠ 0 then g.maxSnippets else 3

/-- The grounding block of `queryRAG` (core.js 579-588): in strict mode the
planned parts are replaced by the snippets (`splice(0, len, ...snippets)`),
otherwise the snippets are appended. -/
def planContextParts (qp : Option QueryPlanning) (g : Option GroundingCfg)
    (docs : List RDoc) (query : Str) : List Str :=
  let contextParts := buildContextParts qp docs query
  match g with
  | some gc =>
    if gc.enabled then
      let snippets := extractSnippets docs query (effMaxSnippets gc)
      if gc.strict then snippets else contextParts ++ snippets
    else contextParts
  | none => contextParts

/-- `contextParts.join('\n---\n')` (core.js 589). -/
def joinParts (sep : Str) : List Str → Str
  | [] => []
  | [p] => p
  | p :: q :: rest => p ++ sep ++ joinParts sep (q :: rest)

def ctxSep : Str := ['\n', '-', '-', '-', '\n']

def planContext (qp : Option QueryPlanning) (g : Option GroundingCfg)
    (docs : List RDoc) (query : Str) : Str :=
  joinParts ctxSep (planContextParts qp g docs query)

/-- «Every character of `hay` lies inside an occurrence of one of the
`sents`»: the formal reading of the claim that every character of the
context belongs to an extracted sentence. -/
def charCoveredB (hay : Str) (sents : List Str) (i : ℕ) : Bool :=
  sents.any (fun s => (List.range (i + 1)).any (fun j =>
    decide ((hay.drop j).take s.length = s) && decide (j + s.length ≤ hay.length) &&
      decide (i < j + s.length)))

def allCharsFromSentencesB (hay : Str) (sents : List Str) : Bool :=
  (List.range hay.length).all (charCoveredB hay sents)

def exDocC8 : RDoc :=
  ⟨("Employees may work remotely. Vacations accrue monthly.").toList, 0, {}⟩

def c8query : Str := ("remote work policy").toList

/-! ## Recursive chunking — `DocumentProcessor.recursiveSplit`,
observability.js 301-330

```js
recursiveSplit(text) {
  const chunks = [];
  const sizeChars = Math.max(500, this.config.chunkSize || 1000);
  const baseOverlap = Math.max(0, this.config.chunkOverlap || 200);
  const sentences = text.split(/(?<=[.!?])\s+/);
  let current = '';
  for (const s of sentences) {
    const candidate = current.length ? current + ' ' + s : s;
    if (candidate.length >= sizeChars) {
      const entropy = this._entropy(candidate);
      const overlap = Math.min(baseOverlap + Math.floor(entropy * 50), Math.floor(sizeChars / 3));
      chunks.push(candidate);
      current = candidate.slice(Math.max(0, candidate.length - overlap));
    } else {
      current = candidate;
    }
  }
  if (current) chunks.push(current);
  return chunks;
}
```

`_entropy` computes the Shannon entropy over character frequencies in
floating point (`Math.log2`); the embedding abstracts the whole term
`Math.floor(entropy * 50)` as an oracle `ent : Str → ℕ` (entropy is
nonnegative, so the floor is a natural) and every theorem quantifies over
it.  For a window consisting of a single repeated character the entropy is
exactly 0 — `p = 1`, `Math.log2(1) = 0`, with no rounding — so on such
windows the oracle `fun _ => 0` coincides with the source computation. -/

structure ChunkCfg where
  chunkSize : ℤ := 0
  chunkOverlap : ℤ := 0
deriving DecidableEq

/-- `Math.max(500, chunkSize || 1000)` — always ≥ 500, hence a natural. -/
def sizeChars (cfg : ChunkCfg) : ℕ :=
  (max 500 (if cfg.chunkSize = 0 then 1000 else cfg.chunkSize)).toNat

/-- `Math.max(0, chunkOverlap || 200)` — always ≥ 0, hence a natural. -/
def baseOverlap (cfg : ChunkCfg) : ℕ :=
  (max 0 (if cfg.chunkOverlap = 0 then 200 else cfg.chunkOverlap)).toNat

/-- `Math.min(baseOverlap + Math.floor(entropy * 50), Math.floor(sizeChars / 3))`. -/
def overlapOf (cfg : ChunkCfg) (ent : Str → ℕ) (w : Str) : ℕ :=
  min (baseOverlap cfg + ent w) (sizeChars cfg / 3)

/-- The chunking loop.  Besides the chunk list it records, for every window
emitted through the `candidate.length >= sizeChars` branch, the pair
(window, number of trailing characters carried over into `current`). -/
def recursiveSplitGo (cfg : ChunkCfg) (ent : Str → ℕ) :
    List Str → Str → List Str × List (Str × ℕ)
  | [], cur => (if cur.isEmpty then [] else [cur], [])
  | s :: rest, cur =>
    let cand := if cur.length ≠ 0 then cur ++ ' ' :: s else s
    if sizeChars cfg ≤ cand.length then
      let carried := cand.drop (cand.length - overlapOf cfg ent cand)
      let res := recursiveSplitGo cfg ent rest carried
      (cand :: res.1, (cand, carried.length) :: res.2)
    else recursiveSplitGo cfg ent rest cand

def recursiveSplit (cfg : ChunkCfg) (ent : Str → ℕ) (text : Str) : List Str :=
  (recursiveSplitGo cfg ent (splitSentences text) []).1

def recursiveSplitCarries (cfg : ChunkCfg) (ent : Str → ℕ) (text : Str) : List (Str × ℕ) :=
  (recursiveSplitGo cfg ent (splitSentences text) []).2

/-- The counterexample input: a 600-character single-symbol sentence
followed by a short one, with `chunkSize = 300`, `chunkOverlap = 200`.  The
only emitted window is uniform, so its float entropy term is exactly 0 and
the oracle `fun _ => 0` agrees with the source on every consulted window. -/
def c5text : Str := List.replicate 600 '!' ++ (" abc.").toList

def c5cfg : ChunkCfg := ⟨300, 200⟩

def entZero : Str → ℕ := fun _ => 0

/-! ## Ingestion — `VectraClient.ingestDocuments`, core.js 138-340
(single-file branch, lines 168-339; the SQLite logger calls are
observability sinks outside the modelled core)

The external collaborators are oracles in an environment record:
* `fileExists1` / `fileExists2` — the two `vectorStore.fileExists` consults
  (the `catch` already folded in: a throwing store yields `false`);
* `chunks` — the processor output for the loaded text;
* `chunkHash` — SHA-256 over a chunk's content (`crypto` is an external);
* `embedOracle b a` — outcome of `embedder.embedDocuments` for batch `b`,
  attempt `a`;
* `storeOracle a` — outcome of the store write, attempt `a`;
* `uuidv5` — the `uuid` npm package's v5 function (name, namespace);
* `metas` / `enrichOracle` — per-chunk metadata and enrichment results.

Events record the externally visible actions in program order. -/

abbrev Vec := List ℚ

structure ChunkMetaParts where
  fileType : Option Str := none
  docTitle : Option Str := none
  pageFrom : Option ℕ := none
  pageTo : Option ℕ := none
  sectionName : Option Str := none
deriving DecidableEq

structure EnrichParts where
  summary : Str := []
  keywords : List Str := []
  hypotheticalQuestions : List Str := []
deriving DecidableEq

structure StoredMeta where
  docId : Str
  source : Str
  absolutePath : Str
  fileMD5 : Str
  fileSHA256 : Str
  fileSize : ℕ
  lastModified : ℕ
  chunkIndex : ℕ
  sha256 : Str
  parts : ChunkMetaParts
  enrich : Option EnrichParts := none
deriving DecidableEq

structure StoredDoc where
  id : Str
  content : Str
  embedding : Vec
  meta : StoredMeta
deriving DecidableEq

/-- `uuidv5.DNS`. -/
def uuidDNS : Str := ("6ba7b810-9dad-11d1-80b4-00c04fd430c8").toList

/-- core.js 239-260: the stored documents built from the chunks.
`idNamespace = uuidv5('vectra-js', uuidv5.DNS)`;
`id = uuidv5(`${fileSHA256}:${i}`, idNamespace)`. -/
def mkDocuments (uuidv5 : Str → Str → Str) (fileSHA256 : Str) (chunks : List Str)
    (embeddings : List Vec) (filePath absPath fileMD5 : Str) (fileSize lastModified : ℕ)
    (hashes : List Str) (metas : ℕ → ChunkMetaParts) : List StoredDoc :=
  let idNamespace := uuidv5 (("vectra-js").toList) uuidDNS
  chunks.enum.map (fun p =>
    { id := uuidv5 (fileSHA256 ++ ':' :: natToStr p.1) idNamespace
      content := p.2
      embedding := embeddings.getD p.1 []
      meta := { docId := uuidv5 (fileSHA256 ++ ':' :: natToStr p.1) idNamespace
                source := filePath
                absolutePath := absPath
                fileMD5 := fileMD5
                fileSHA256 := fileSHA256
                fileSize := fileSize
                lastModified := lastModified
                chunkIndex := p.1
                sha256 := hashes.getD p.1 []
                parts := metas p.1 } })

inductive IngestMode
  | skip
  | append
  | replace
deriving DecidableEq

structure IngestionCfg where
  mode : Option IngestMode := none
  rateLimitEnabled : Bool := false
  concurrencyLimit : Option ℕ := none
deriving DecidableEq

/-- `(config.ingestion && config.ingestion.mode) ? mode : 'skip'`. -/
def effMode : Option IngestionCfg → IngestMode
  | some c => c.mode.getD .skip
  | none => .skip

/-- `!!(config.ingestion && config.ingestion.rateLimitEnabled)`. -/
def rateLimited : Option IngestionCfg → Bool
  | some c => c.rateLimitEnabled
  | none => false

/-- `(typeof concurrencyLimit === 'number') ? concurrencyLimit : 5`. -/
def effConcurrency : Option IngestionCfg → ℕ
  | some c => c.concurrencyLimit.getD 5
  | none => 5

inductive IngestEv where
  | ingestStart
  | preValidation
  | existsCheck (second : Bool)
  | ingestSkipped
  | loadDocument
  | chunkingStart
  | embeddingStart (n : ℕ)
  | embedCall (batch : List Str)
  | waitMs (ms : ℕ)
  | enrichCall
  | ensureIndexes
  | deleteByPath
  | addDocuments (docs : List StoredDoc)
  | upsertDocuments (docs : List StoredDoc)
  | ingestEnd
deriving DecidableEq

/-- `for (let i = 0; i < toEmbed.length; i += limit) batches.push(slice(i, i+limit))`.
The fuel is the list length; with `limit = 0` the JS loop never terminates,
so theorems assume a positive limit. -/
def batchifyGo (limit : ℕ) : ℕ → List Str → List (List Str)
  | 0, _ => []
  | _, [] => []
  | fuel + 1, x :: xs => (x :: xs).take limit :: batchifyGo limit fuel ((x :: xs).drop limit)

def batchify (limit : ℕ) (l : List Str) : List (List Str) := batchifyGo limit l.length l

/-- One batch with retry (core.js 216-230): attempts issue `embedCall`;
after a failed attempt with retries left, wait `delay` then double it
(capped at 4000).  The fuel is the number of retries remaining
(`3 - 1 - attempt`); fuel 0 corresponds to `attempt >= 3` after the
increment, where the error is thrown. -/
def retryEmbedBatch (call : ℕ → Except ℕ (List Vec)) (b : List Str) :
    ℕ → ℕ → ℕ → List IngestEv × Except ℕ (List Vec)
  | 0, attempt, _ =>
    match call attempt with
    | .ok v => ([.embedCall b], .ok v)
    | .error e => ([.embedCall b], .error e)
  | fuel + 1, attempt, delay =>
    match call attempt with
    | .ok v => ([.embedCall b], .ok v)
    | .error e =>
      let res := retryEmbedBatch call b fuel (attempt + 1) (min 4000 (delay * 2))
      (.embedCall b :: .waitMs delay :: res.1, res.2)

/-- The waits performed, in order. -/
def waitsOf (evs : List IngestEv) : List ℕ :=
  evs.filterMap (fun e => match e with | .waitMs m => some m | _ => none)

/-- Sequential batch loop (`for (const batch of batches)`); a batch whose
three attempts all fail aborts the loop with that error. -/
def embedBatches (oracle : ℕ → ℕ → Except ℕ (List Vec)) :
    List (List Str) → ℕ → List IngestEv × Except ℕ (List Vec)
  | [], _ => ([], .ok [])
  | b :: bs, bi =>
    match retryEmbedBatch (oracle bi) b 2 0 500 with
    | (evs, .ok v) =>
      match embedBatches oracle bs (bi + 1) with
      | (evs2, .ok vs) => (evs ++ evs2, .ok (v ++ vs))
      | (evs2, .error e) => (evs ++ evs2, .error e)
    | (evs, .error e) => (evs, .error e)

/-- core.js 209-235: nothing happens when every chunk was cached; otherwise
the pending chunks are batched with
`limit = rateLimitEnabled ? concurrencyLimit : toEmbed.length`. -/
def embedPhase (ing : Option IngestionCfg) (oracle : ℕ → ℕ → Except ℕ (List Vec))
    (toEmbed : List Str) : List IngestEv × Except ℕ (List Vec) :=
  if toEmbed.length = 0 then ([], .ok [])
  else
    let limit := if rateLimited ing then effConcurrency ing else toEmbed.length
    embedBatches oracle (batchify limit toEmbed) 0

def cacheHas (cache : List (Str × Vec)) (h : Str) : Bool := cache.any (fun p => p.1 == h)

def cacheGet (cache : List (Str × Vec)) (h : Str) : Vec :=
  match cache.find? (fun p => p.1 == h) with
  | some p => p.2
  | none => []

/-- The store write with the same 3-attempt backoff (core.js 291-306);
`wr` is the write event (`addDocuments` or `upsertDocuments`). -/
def retryStore (call : ℕ → Except ℕ Unit) (wr : IngestEv) :
    ℕ → ℕ → ℕ → List IngestEv × Except ℕ Unit
  | 0, attempt, _ =>
    match call attempt with
    | .ok _ => ([wr], .ok ())
    | .error e => ([wr], .error e)
  | fuel + 1, attempt, delay =>
    match call attempt with
    | .ok _ => ([wr], .ok ())
    | .error e =>
      let res := retryStore call wr fuel (attempt + 1) (min 4000 (delay * 2))
      (wr :: .waitMs delay :: res.1, res.2)

structure IngestEnv where
  fileExists1 : Bool
  fileExists2 : Bool
  chunks : List Str
  chunkHash : Str → Str
  fileSHA256 : Str
  fileMD5 : Str
  fileSize : ℕ
  mtime : ℕ
  filePath : Str
  absPath : Str
  embedOracle : ℕ → ℕ → Except ℕ (List Vec)
  storeOracle : ℕ → Except ℕ Unit
  metas : ℕ → ChunkMetaParts
  enrichOracle : ℕ → EnrichParts

structure ClientCfg where
  ingestion : Option IngestionCfg := none
  metadataEnrichment : Bool := false

/-- core.js 210-213: the chunks whose hash misses the embedding cache. -/
def toEmbedOf (env : IngestEnv) (cache : List (Str × Vec)) : List Str :=
  env.chunks.filter (fun c => ! cacheHas cache (env.chunkHash c))

/-- core.js 232-238: fold the fresh embeddings back into the cache and read
every chunk's embedding out of it. -/
def embedsOf (env : IngestEnv) (cache : List (Str × Vec)) (newEmbeds : List Vec) : List Vec :=
  let chunks := env.chunks
  let hashes := chunks.map env.chunkHash
  let mapIndex := (chunks.enum.filter (fun p => ! cacheHas cache (env.chunkHash p.2))).map (·.1)
  let newPairs := (mapIndex.zip newEmbeds).map (fun q => (hashes.getD q.1 [], q.2))
  let cache2 := newPairs.reverse ++ cache
  hashes.map (cacheGet cache2)

/-- core.js 262-266: enrichment rewrites `meta` only, never `id`. -/
def enrichDoc (g : ℕ → EnrichParts) (p : ℕ × StoredDoc) : StoredDoc :=
  { p.2 with meta := { p.2.meta with enrich := some (g p.1) } }

/-- core.js 239-266: the documents as written, after optional metadata
enrichment (which touches only `meta`, never `id`). -/
def documentsOf (cfg : ClientCfg) (env : IngestEnv) (u : Str → Str → Str)
    (cache : List (Str × Vec)) (newEmbeds : List Vec) : List StoredDoc :=
  let documents := mkDocuments u env.fileSHA256 env.chunks (embedsOf env cache newEmbeds)
    env.filePath env.absPath env.fileMD5 env.fileSize env.mtime
    (env.chunks.map env.chunkHash) env.metas
  if cfg.metadataEnrichment then
    documents.enum.map (enrichDoc env.enrichOracle)
  else documents

/-- core.js 288-289: replace mode upserts, otherwise adds. -/
def writeEvOf (cfg : ClientCfg) (env : IngestEnv) (u : Str → Str → Str)
    (cache : List (Str × Vec)) (newEmbeds : List Vec) : IngestEv :=
  if effMode cfg.ingestion = .replace then
    .upsertDocuments (documentsOf cfg env u cache newEmbeds)
  else
    .addDocuments (documentsOf cfg env u cache newEmbeds)

/-- The single-file branch of `ingestDocuments` (core.js 168-339) as a
trace-producing function: the event list in program order and the overall
outcome (`.error e` models the rethrown exception). -/
def ingestFile (cfg : ClientCfg) (env : IngestEnv) (u : Str → Str → Str)
    (cache : List (Str × Vec)) : List IngestEv × Except ℕ Unit :=
  let evs1 : List IngestEv := [.ingestStart, .preValidation, .existsCheck false]
  if effMode cfg.ingestion = .skip ∧ env.fileExists1 = true then
    (evs1 ++ [.ingestSkipped], .ok ())
  else
    let evs2 := evs1 ++ [.loadDocument, .chunkingStart, .embeddingStart env.chunks.length]
    match embedPhase cfg.ingestion env.embedOracle (toEmbedOf env cache) with
    | (evsE, .error e) => (evs2 ++ evsE, .error e)
    | (evsE, .ok newEmbeds) =>
      let evs3 := evs2 ++ evsE ++ (if cfg.metadataEnrichment then [.enrichCall] else []) ++
        [.ensureIndexes, .existsCheck true]
      if effMode cfg.ingestion = .skip ∧ env.fileExists2 = true then
        (evs3 ++ [.ingestSkipped], .ok ())
      else
        let evs4 := evs3 ++ (if effMode cfg.ingestion = .replace then [.deleteByPath] else [])
        let res := retryStore env.storeOracle (writeEvOf cfg env u cache newEmbeds) 2 0 500
        match res.2 with
        | .ok _ => (evs4 ++ res.1 ++ [.ingestEnd], .ok ())
        | .error e => (evs4 ++ res.1, .error e)

def c1uuid : Str → Str → Str := fun name ns => ns ++ '/' :: name

def c1env : IngestEnv :=
  { fileExists1 := false
    fileExists2 := false
    chunks := [['a']]
    chunkHash := fun c => c
    fileSHA256 := ['f', '1']
    fileMD5 := []
    fileSize := 1
    mtime := 0
    filePath := ['p']
    absPath := ['p']
    embedOracle := fun _ _ => Except.ok [[(1 : ℚ)]]
    storeOracle := fun _ => Except.ok ()
    metas := fun _ => {}
    enrichOracle := fun _ => {} }

def c1docs : List StoredDoc := documentsOf {} c1env c1uuid [] [[(1 : ℚ)]]

def c6ing : Option IngestionCfg :=
  some { mode := none, rateLimitEnabled := true, concurrencyLimit := some 2 }

def c6oracle : ℕ → ℕ → Except ℕ (List Vec) := fun _ _ => Except.ok [[(1 : ℚ)]]

def c6chunks : List Str := [['a'], ['b'], ['c']]

def c6fail : ℕ → Except ℕ (List Vec) := fun _ => Except.error 7

def c9env : IngestEnv :=
  { fileExists1 := true
    fileExists2 := true
    chunks := [['a']]
    chunkHash := fun c => c
    fileSHA256 := ['f', '1']
    fileMD5 := []
    fileSize := 1
    mtime := 0
    filePath := ['p']
    absPath := ['p']
    embedOracle := fun _ _ => Except.ok [[(1 : ℚ)]]
    storeOracle := fun _ => Except.ok ()
    metas := fun _ => {}
    enrichOracle := fun _ => {} }

/-! ## Generic list helpers -/

/-- `findIdx` over a mapped list. -/
theorem findIdx_map_snd {α β : Type} (l : List α) (f : α → β) (p : β → Bool) :
    (l.map f).findIdx p = l.findIdx (fun a => p (f a)) := by
  induction l with
  | nil => rfl
  | cons a t ih => simp [List.findIdx_cons, ih]

/-! ### Structure of the key list -/

theorem mem_foldl_insertKey :
    ∀ (cs : List Str) (acc : List Str) (x : Str),
      x ∈ cs.foldl insertKey acc ↔ x ∈ acc ∨ x ∈ cs := by
  intro cs
  induction cs with
  | nil => simp
  | cons c t ih =>
    intro acc x
    by_cases hc : c ∈ acc
    · simp only [List.foldl_cons, insertKey, if_pos hc, ih, List.mem_cons]
      constructor
      · rintro (h | h) <;> tauto
      · rintro (h | h | h)
        · tauto
        · subst h; tauto
        · tauto
    · simp only [List.foldl_cons, insertKey, if_neg hc, ih, List.mem_append,
        List.mem_singleton, List.mem_cons]
      tauto

theorem nodup_foldl_insertKey :
    ∀ (cs : List Str) (acc : List Str), acc.Nodup → (cs.foldl insertKey acc).Nodup := by
  intro cs
  induction cs with
  | nil => intro acc h; exact h
  | cons c t ih =>
    intro acc hacc
    apply ih
    by_cases hc : c ∈ acc
    · simpa [insertKey, if_pos hc]
    · simp [insertKey, if_neg hc, List.nodup_append, hacc, hc]

theorem rrfKeys_nodup (docLists : List (List RDoc)) : (rrfKeys docLists).Nodup :=
  nodup_foldl_insertKey _ [] List.nodup_nil

theorem mem_rrfKeys {docLists : List (List RDoc)} {x : Str} :
    x ∈ rrfKeys docLists ↔ x ∈ rrfContents docLists := by
  simp [rrfKeys, mem_foldl_insertKey]

theorem mem_rrfContents {docLists : List (List RDoc)} {x : Str} :
    x ∈ rrfContents docLists ↔ ∃ d ∈ docLists.flatMap id, d.content = x := by
  simp only [rrfContents, List.mem_flatMap, List.mem_map, id_eq]
  tauto

/-! ### The content map -/

theorem firstDocFor_content {L : List (List RDoc)} {key : Str} {d : RDoc}
    (h : firstDocFor L key = some d) : d.content = key := by
  have := List.find?_some h
  simpa using this

theorem firstDocFor_isSome {L : List (List RDoc)} {key : Str}
    (h : ∃ d ∈ L.flatMap id, d.content = key) : ∃ d, firstDocFor L key = some d := by
  obtain ⟨d, hd, hc⟩ := h
  have hs : ((L.flatMap id).find? (fun d => decide (d.content = key))).isSome :=
    List.find?_isSome.mpr ⟨d, hd, by simp [hc]⟩
  exact Option.isSome_iff_exists.mp hs

theorem filterMap_firstDocFor_map_content (L : List (List RDoc)) :
    ∀ (ks : List Str), (∀ c ∈ ks, ∃ d, firstDocFor L c = some d) →
      ((ks.filterMap (firstDocFor L)).map (·.content)) = ks := by
  intro ks
  induction ks with
  | nil => simp
  | cons c t ih =>
    intro h
    obtain ⟨d, hd⟩ := h c (by simp)
    simp [List.filterMap_cons, hd, firstDocFor_content hd,
      ih (fun c hc => h c (by simp [hc]))]

/-! ### The sorted key list -/

theorem rrfSortedKeys_perm (L : List (List RDoc)) (k : ℚ) :
    (rrfSortedKeys L k).Perm (rrfKeys L) := by
  have h := List.perm_insertionSort (rrfRel (rrfScore L k)) (rrfKeys L).enum
  have h2 := h.map (·.2)
  simpa [rrfSortedKeys, List.enum_map_snd] using h2

theorem rrf_map_content (L : List (List RDoc)) (k : ℚ) :
    (reciprocalRankFusion L k).map (·.content) = rrfSortedKeys L k := by
  apply filterMap_firstDocFor_map_content
  intro c hc
  apply firstDocFor_isSome
  have hk : c ∈ rrfKeys L := (rrfSortedKeys_perm L k).mem_iff.mp hc
  exact mem_rrfContents.mp (mem_rrfKeys.mp hk)

theorem rrfRel_total (sc : Str → ℚ) : ∀ p q, rrfRel sc p q ∨ rrfRel sc q p := by
  intro p q
  rcases lt_trichotomy (sc p.2) (sc q.2) with h | h | h
  · right; left; exact h
  · rcases Nat.le_total p.1 q.1 with hle | hle
    · left; right; exact ⟨h, hle⟩
    · right; right; exact ⟨h.symm, hle⟩
  · left; left; exact h

theorem rrfRel_trans (sc : Str → ℚ) :
    ∀ p q r, rrfRel sc p q → rrfRel sc q r → rrfRel sc p r := by
  rintro p q r (h1 | ⟨h1, h1i⟩) (h2 | ⟨h2, h2i⟩)
  · left; exact h2.trans h1
  · left; rwa [h2] at h1
  · left; rwa [← h1] at h2
  · right; exact ⟨h1.trans h2, h1i.trans h2i⟩

theorem pairwise_insertionSort_rrfRel (sc : Str → ℚ) (l : List (ℕ × Str)) :
    List.Pairwise (rrfRel sc) (List.insertionSort (rrfRel sc) l) := by
  haveI : IsTotal (ℕ × Str) (rrfRel sc) := ⟨rrfRel_total sc⟩
  haveI : IsTrans (ℕ × Str) (rrfRel sc) := ⟨fun a b c => rrfRel_trans sc a b c⟩
  exact List.sorted_insertionSort _ _

theorem sBefore_def (sc : Str → ℚ) (p0 q : ℕ × Str) :
    sBefore sc p0 q ↔ (sc p0.2 < sc q.2 ∨ (sc q.2 = sc p0.2 ∧ q.1 < p0.1)) := Iff.rfl

/-- In a list sorted by `rrfRel sc` whose entries have pairwise-distinct keys
and pairwise-distinct positions, the index of an entry equals the number of
entries strictly before it. -/
theorem sorted_findIdx_eq_countP (sc : Str → ℚ) :
    ∀ (l : List (ℕ × Str)), List.Pairwise (rrfRel sc) l →
      (l.map (·.2)).Nodup → (l.map (·.1)).Nodup →
      ∀ p ∈ l,
        l.findIdx (fun q => decide (q.2 = p.2)) =
          l.countP (fun q => decide (sBefore sc p q)) := by
  intro l
  induction l with
  | nil => intro _ _ _ p hp; simp at hp
  | cons a t ih =>
    intro hpw hn2 hn1 p hp
    obtain ⟨ha, hpw'⟩ := List.pairwise_cons.mp hpw
    have hn2' : (t.map (·.2)).Nodup := (List.nodup_cons.mp (by simpa using hn2)).2
    have hn1' : (t.map (·.1)).Nodup := (List.nodup_cons.mp (by simpa using hn1)).2
    have ha2nt : a.2 ∉ t.map (·.2) := (List.nodup_cons.mp (by simpa using hn2)).1
    have ha1nt : a.1 ∉ t.map (·.1) := (List.nodup_cons.mp (by simpa using hn1)).1
    by_cases hap : a.2 = p.2
    · have hpa : p = a := by
        rcases List.mem_cons.mp hp with h | h
        · exact h
        · exact absurd (hap ▸ List.mem_map_of_mem (·.2) h) ha2nt
      subst hpa
      have hhead : ¬ sBefore sc p p := by simp [sBefore]
      have hrest : t.countP (fun q => decide (sBefore sc p q)) = 0 := by
        rw [List.countP_eq_zero]
        intro q hq
        simp only [decide_eq_true_eq]
        rw [sBefore_def]
        rintro (h | ⟨h, hi⟩)
        · rcases ha q hq with h2 | ⟨h2, _⟩
          · exact absurd h2 (lt_asymm h)
          · rw [h2] at h; exact lt_irrefl _ h
        · rcases ha q hq with h2 | ⟨h2, h2i⟩
          · rw [h] at h2; exact lt_irrefl _ h2
          · exact absurd hi (not_lt.mpr h2i)
      rw [List.findIdx_cons, List.countP_cons]
      simp [hhead, hrest]
    · have hpt : p ∈ t := by
        rcases List.mem_cons.mp hp with h | h
        · exact absurd (congrArg Prod.snd h.symm) hap
        · exact h
      have hhead : sBefore sc p a := by
        have h1ne : a.1 ≠ p.1 := by
          intro hh
          apply ha1nt
          rw [hh]
          exact List.mem_map_of_mem (·.1) hpt
        rw [sBefore_def]
        rcases ha p hpt with h | ⟨h, hi⟩
        · left; exact h
        · right; exact ⟨h, lt_of_le_of_ne hi h1ne⟩
      have ihr := ih hpw' hn2' hn1' p hpt
      rw [List.findIdx_cons, List.countP_cons]
      have hfa : (decide (a.2 = p.2)) = false := by simp [hap]
      simp [hfa, hhead, ihr, Nat.add_comm]

/-! ### Arithmetic facts about fused scores -/

theorem scoreFrom_succ_le (key : Str) (k : ℚ) (hk : 0 ≤ k) :
    ∀ (l : List RDoc) (m : ℚ), 0 ≤ m →
      scoreFrom key k (m + 1) l ≤ scoreFrom key k m l := by
  intro l
  induction l with
  | nil => intro m _; simp [scoreFrom]
  | cons d t ih =>
    intro m hm
    simp only [scoreFrom]
    have h1 := ih (m + 1) (by linarith)
    by_cases hc : d.content = key
    · simp only [if_pos hc]
      have hd : 1 / (k + (m + 1) + 1) ≤ 1 / (k + m + 1) := by
        apply one_div_le_one_div_of_le <;> linarith
      linarith
    · simp only [if_neg hc]
      linarith

theorem scoreFrom_diff_lt (key : Str) (k : ℚ) (hk : 0 ≤ k) :
    ∀ (l : List RDoc) (m : ℚ), 0 ≤ m →
      scoreFrom key k m l - scoreFrom key k (m + 1) l < 1 / (k + m + 1) := by
  intro l
  induction l with
  | nil =>
    intro m hm
    simp only [scoreFrom, sub_zero]
    positivity
  | cons d t ih =>
    intro m hm
    simp only [scoreFrom]
    have h1 := ih (m + 1) (by linarith)
    by_cases hc : d.content = key
    · simp only [if_pos hc]
      linarith
    · simp only [if_neg hc]
      have hd : 1 / (k + (m + 1) + 1) ≤ 1 / (k + m + 1) := by
        apply one_div_le_one_div_of_le <;> linarith
      linarith

theorem listScore_cons_self (k : ℚ) (hk : 0 ≤ k) (d : RDoc) (l : List RDoc) :
    listScore d.content k l < listScore d.content k (d :: l) := by
  have h := scoreFrom_diff_lt d.content k hk l 0 le_rfl
  show scoreFrom d.content k 0 l <
    (if d.content = d.content then 1 / (k + 0 + 1) else 0) + scoreFrom d.content k (0 + 1) l
  rw [if_pos rfl]
  linarith

theorem listScore_cons_other (key : Str) (k : ℚ) (hk : 0 ≤ k) (d : RDoc)
    (hd : d.content ≠ key) (l : List RDoc) :
    listScore key k (d :: l) ≤ listScore key k l := by
  have h := scoreFrom_succ_le key k hk l 0 le_rfl
  show (if d.content = key then 1 / (k + 0 + 1) else 0) + scoreFrom key k (0 + 1) l ≤
    scoreFrom key k 0 l
  rw [if_neg hd]
  linarith

theorem rrfScore_set :
    ∀ (L : List (List RDoc)) (j : ℕ), j < L.length → ∀ (y : List RDoc) (k : ℚ) (key : Str),
      rrfScore (L.set j y) k key =
        rrfScore L k key - listScore key k (L.getD j []) + listScore key k y := by
  intro L
  induction L with
  | nil => intro j hj; simp at hj
  | cons l t ih =>
    intro j hj y k key
    cases j with
    | zero =>
      simp only [List.set_cons_zero, rrfScore, List.map_cons, List.sum_cons,
        List.getD_cons_zero]
      ring
    | succ j =>
      have hj' : j < t.length := by simpa using hj
      simp only [List.set_cons_succ, rrfScore, List.map_cons, List.sum_cons,
        List.getD_cons_succ]
      have hih := ih j hj' y k key
      simp only [rrfScore] at hih
      rw [hih]
      ring

theorem mem_rrfContents_insertAtHead :
    ∀ (L : List (List RDoc)) (j : ℕ), j < L.length → ∀ (d : RDoc) (x : Str),
      (x ∈ rrfContents (insertAtHead L j d) ↔ x = d.content ∨ x ∈ rrfContents L) := by
  intro L
  induction L with
  | nil => intro j hj; simp at hj
  | cons l t ih =>
    intro j hj d x
    cases j with
    | zero =>
      simp only [insertAtHead, List.set_cons_zero, List.getD_cons_zero, rrfContents,
        List.flatMap_cons, List.mem_append, List.map_cons, List.mem_cons]
      tauto
    | succ j =>
      have hj' : j < t.length := by simpa using hj
      have heq : insertAtHead (l :: t) (j + 1) d = l :: insertAtHead t j d := by
        simp [insertAtHead]
      rw [heq]
      have hih := ih j hj' d x
      simp only [rrfContents, List.flatMap_cons, List.mem_append] at hih ⊢
      tauto

theorem rrfScore_insertAtHead_self (L : List (List RDoc)) (j : ℕ) (hj : j < L.length)
    (d : RDoc) (k : ℚ) (hk : 0 ≤ k) :
    rrfScore L k d.content < rrfScore (insertAtHead L j d) k d.content := by
  rw [insertAtHead, rrfScore_set L j hj]
  have h := listScore_cons_self k hk d (L.getD j [])
  linarith

theorem rrfScore_insertAtHead_other (L : List (List RDoc)) (j : ℕ) (hj : j < L.length)
    (d : RDoc) (k : ℚ) (hk : 0 ≤ k) (key : Str) (hkey : key ≠ d.content) :
    rrfScore (insertAtHead L j d) k key ≤ rrfScore L k key := by
  rw [insertAtHead, rrfScore_set L j hj]
  have h := listScore_cons_other key k hk d (fun h => hkey h.symm) (L.getD j [])
  linarith

/-! ### Rank of a content in the fused output -/

theorem enum_fst_eq_of_snd_eq {α : Type} (l : List α) (hl : l.Nodup)
    (i i' : ℕ) (x : α) (h : (i, x) ∈ l.enum) (h' : (i', x) ∈ l.enum) : i = i' := by
  rw [List.mk_mem_enum_iff_getElem?] at h h'
  have hlen : i < l.length := by
    obtain ⟨hlen, -⟩ := List.getElem?_eq_some.mp h
    exact hlen
  exact List.getElem?_inj hlen hl (h.trans h'.symm)

theorem countP_enum_snd {α : Type} (l : List α) (p : α → Bool) :
    l.enum.countP (fun q => p q.2) = l.countP p := by
  conv_rhs => rw [← List.enum_map_snd l]
  rw [List.countP_map]
  rfl

theorem nodup_enum_snd {α : Type} (l : List α) (hl : l.Nodup) :
    (l.enum.map (·.2)).Nodup := by
  rw [show l.enum.map (·.2) = l.enum.map Prod.snd from rfl, List.enum_map_snd]
  exact hl

theorem nodup_enum_fst {α : Type} (l : List α) : (l.enum.map (·.1)).Nodup := by
  rw [show l.enum.map (·.1) = l.enum.map Prod.fst from rfl, List.enum_map_fst]
  exact List.nodup_range _

/-- For a content present among the keys, its position in the fused output is
the number of key entries strictly before it. -/
theorem fusedRank_eq_countP (L : List (List RDoc)) (k : ℚ) (cont : Str)
    (h : cont ∈ rrfKeys L) :
    ∃ i0, (i0, cont) ∈ (rrfKeys L).enum ∧
      fusedRank L k cont =
        (rrfKeys L).enum.countP (fun q => decide (sBefore (rrfScore L k) (i0, cont) q)) := by
  obtain ⟨i0, hget⟩ := List.mem_iff_get?.mp h
  have hi0 : (i0, cont) ∈ (rrfKeys L).enum := by
    rw [List.mk_mem_enum_iff_getElem?]
    rwa [List.get?_eq_getElem?] at hget
  refine ⟨i0, hi0, ?_⟩
  have hsorted := pairwise_insertionSort_rrfRel (rrfScore L k) (rrfKeys L).enum
  set sorted := List.insertionSort (rrfRel (rrfScore L k)) (rrfKeys L).enum with hsortdef
  have hperm : sorted.Perm (rrfKeys L).enum := List.perm_insertionSort _ _
  have hn2 : (sorted.map (·.2)).Nodup := by
    have := (hperm.map (·.2)).nodup_iff.mpr (nodup_enum_snd _ (rrfKeys_nodup L))
    exact this
  have hn1 : (sorted.map (·.1)).Nodup := by
    have := (hperm.map (·.1)).nodup_iff.mpr (nodup_enum_fst (rrfKeys L))
    exact this
  have hmemS : (i0, cont) ∈ sorted := by
    rw [hsortdef, List.mem_insertionSort]
    exact hi0
  -- fusedRank as findIdx over the sorted pair list
  have h1 : fusedRank L k cont = sorted.findIdx (fun q => decide (q.2 = cont)) := by
    have e1 : fusedRank L k cont =
        ((reciprocalRankFusion L k).map (·.content)).findIdx (fun s => decide (s = cont)) := by
      rw [findIdx_map_snd]
      rfl
    rw [e1, rrf_map_content, rrfSortedKeys, findIdx_map_snd]
  rw [h1]
  have h2 := sorted_findIdx_eq_countP (rrfScore L k) sorted hsorted hn2 hn1 (i0, cont) hmemS
  rw [h2]
  exact hperm.countP_eq _

theorem rrf_length (L : List (List RDoc)) (k : ℚ) :
    (reciprocalRankFusion L k).length = (rrfKeys L).length := by
  have h := congrArg List.length (rrf_map_content L k)
  simpa using h.trans (rrfSortedKeys_perm L k).length_eq

theorem fusedRank_of_not_mem (L : List (List RDoc)) (k : ℚ) (cont : Str)
    (h : cont ∉ rrfKeys L) : fusedRank L k cont = (rrfKeys L).length := by
  have hall : ∀ doc ∈ reciprocalRankFusion L k, ¬ (decide (doc.content = cont) = true) := by
    intro doc hdoc
    simp only [decide_eq_true_eq]
    intro he
    apply h
    rw [← he]
    apply (rrfSortedKeys_perm L k).mem_iff.mp
    rw [← rrf_map_content]
    exact List.mem_map_of_mem (·.content) hdoc
  rw [fusedRank, List.findIdx_eq_length.mpr (by simpa using hall), rrf_length]

theorem fusedRank_lt_of_mem (L : List (List RDoc)) (k : ℚ) (cont : Str)
    (h : cont ∈ rrfKeys L) :
    fusedRank L k cont < (reciprocalRankFusion L k).length := by
  apply List.findIdx_lt_length_of_exists
  have hm : cont ∈ rrfSortedKeys L k := (rrfSortedKeys_perm L k).mem_iff.mpr h
  rw [← rrf_map_content] at hm
  obtain ⟨doc, hdoc, he⟩ := List.mem_map.mp hm
  exact ⟨doc, hdoc, by simp [he]⟩

theorem rrfKeys_insertAtHead_perm_of_mem (L : List (List RDoc)) (j : ℕ) (d : RDoc)
    (hj : j < L.length) (h : d.content ∈ rrfKeys L) :
    (rrfKeys (insertAtHead L j d)).Perm (rrfKeys L) := by
  apply List.perm_of_nodup_nodup_toFinset_eq (rrfKeys_nodup _) (rrfKeys_nodup _)
  ext x
  simp only [List.mem_toFinset]
  rw [mem_rrfKeys, mem_rrfContents_insertAtHead L j hj d]
  constructor
  · rintro (rfl | hx)
    · exact h
    · rwa [mem_rrfKeys]
  · intro hx
    right
    rwa [← mem_rrfKeys]

theorem rrfKeys_insertAtHead_length_of_not_mem (L : List (List RDoc)) (j : ℕ) (d : RDoc)
    (hj : j < L.length) (h : d.content ∉ rrfKeys L) :
    (rrfKeys (insertAtHead L j d)).length = (rrfKeys L).length + 1 := by
  have hn : (d.content :: rrfKeys L).Nodup := by
    simp [List.nodup_cons, h, rrfKeys_nodup L]
  have hperm : (rrfKeys (insertAtHead L j d)).Perm (d.content :: rrfKeys L) := by
    apply List.perm_of_nodup_nodup_toFinset_eq (rrfKeys_nodup _) hn
    ext x
    simp only [List.mem_toFinset, List.mem_cons]
    rw [mem_rrfKeys, mem_rrfContents_insertAtHead L j hj d, ← mem_rrfKeys]
  simpa using hperm.length_eq

/-- **C3** — Reciprocal-rank-fusion monotonicity: for every family of input
lists, every document `d` and every list index `j`, inserting `d` at rank 0
of list `j` does not push `d` down in the fused output: its position (index)
in `reciprocalRankFusion` of the modified family is at most its position for
the original family, under the deterministic (discovery-order) tie-breaking
of the embedding.  The hypothesis `0 ≤ k` covers both constants the source
uses (60 and 1). -/
theorem claim_C3_rrf_rank0_monotone (L : List (List RDoc)) (d : RDoc) (j : ℕ) (k : ℚ)
    (hj : j < L.length) (hk : 0 ≤ k) :
    fusedRank (insertAtHead L j d) k d.content ≤ fusedRank L k d.content := by
  have hself := rrfScore_insertAtHead_self L j hj d k hk
  have hother := fun x hx => rrfScore_insertAtHead_other L j hj d k hk x hx
  have hmem' : d.content ∈ rrfKeys (insertAtHead L j d) := by
    rw [mem_rrfKeys, mem_rrfContents_insertAtHead L j hj d]
    left; rfl
  by_cases hmem : d.content ∈ rrfKeys L
  · obtain ⟨i0, hi0, hrank⟩ := fusedRank_eq_countP L k d.content hmem
    obtain ⟨i1, hi1, hrank'⟩ := fusedRank_eq_countP (insertAtHead L j d) k d.content hmem'
    rw [hrank, hrank']
    have step1 : (rrfKeys (insertAtHead L j d)).enum.countP
          (fun q => decide (sBefore (rrfScore (insertAtHead L j d) k) (i1, d.content) q)) ≤
        (rrfKeys (insertAtHead L j d)).enum.countP
          (fun q => decide (rrfScore L k d.content < rrfScore L k q.2)) := by
      apply List.countP_mono_left
      intro q hq
      simp only [decide_eq_true_eq, sBefore_def]
      intro hb
      by_cases hq2 : q.2 = d.content
      · exfalso
        have hqpair : (q.1, d.content) ∈ (rrfKeys (insertAtHead L j d)).enum := by
          rw [← hq2]
          simpa using hq
        have hfst : q.1 = i1 :=
          enum_fst_eq_of_snd_eq _ (rrfKeys_nodup _) q.1 i1 d.content hqpair hi1
        rcases hb with hlt | ⟨heq, hlt1⟩
        · rw [hq2] at hlt
          exact lt_irrefl _ hlt
        · rw [hfst] at hlt1
          exact lt_irrefl _ hlt1
      · rcases hb with hlt | ⟨heq, hi⟩
        · calc rrfScore L k d.content
              < rrfScore (insertAtHead L j d) k d.content := hself
            _ < rrfScore (insertAtHead L j d) k q.2 := hlt
            _ ≤ rrfScore L k q.2 := hother q.2 hq2
        · calc rrfScore L k d.content
              < rrfScore (insertAtHead L j d) k d.content := hself
            _ = rrfScore (insertAtHead L j d) k q.2 := heq.symm
            _ ≤ rrfScore L k q.2 := hother q.2 hq2
    have step2 := countP_enum_snd (rrfKeys (insertAtHead L j d))
      (fun x => decide (rrfScore L k d.content < rrfScore L k x))
    have hperm := rrfKeys_insertAtHead_perm_of_mem L j d hj hmem
    have step3 := hperm.countP_eq (fun x => decide (rrfScore L k d.content < rrfScore L k x))
    have step4 := countP_enum_snd (rrfKeys L)
      (fun x => decide (rrfScore L k d.content < rrfScore L k x))
    have step5 : (rrfKeys L).enum.countP
          (fun q => decide (rrfScore L k d.content < rrfScore L k q.2)) ≤
        (rrfKeys L).enum.countP (fun q => decide (sBefore (rrfScore L k) (i0, d.content) q)) := by
      apply List.countP_mono_left
      intro q hq
      simp only [decide_eq_true_eq, sBefore_def]
      intro hlt
      left
      exact hlt
    calc (rrfKeys (insertAtHead L j d)).enum.countP
          (fun q => decide (sBefore (rrfScore (insertAtHead L j d) k) (i1, d.content) q))
        ≤ (rrfKeys (insertAtHead L j d)).enum.countP
          (fun q => decide (rrfScore L k d.content < rrfScore L k q.2)) := step1
      _ = (rrfKeys (insertAtHead L j d)).countP
          (fun x => decide (rrfScore L k d.content < rrfScore L k x)) := step2
      _ = (rrfKeys L).countP
          (fun x => decide (rrfScore L k d.content < rrfScore L k x)) := step3
      _ = (rrfKeys L).enum.countP
          (fun q => decide (rrfScore L k d.content < rrfScore L k q.2)) := step4.symm
      _ ≤ (rrfKeys L).enum.countP
          (fun q => decide (sBefore (rrfScore L k) (i0, d.content) q)) := step5
  · have h1 : fusedRank L k d.content = (rrfKeys L).length :=
      fusedRank_of_not_mem L k _ hmem
    have h2 : fusedRank (insertAtHead L j d) k d.content <
        (rrfKeys (insertAtHead L j d)).length := by
      have h := fusedRank_lt_of_mem (insertAtHead L j d) k _ hmem'
      rwa [rrf_length] at h
    have h3 := rrfKeys_insertAtHead_length_of_not_mem L j d hj hmem
    omega

theorem exKeys_eval : rrfKeys exLists = [['d','1'],['d','2'],['d','3'],['d','4']] := by
  decide

theorem exScore1 : rrfScore exLists 60 ['d','1'] = 1/61 := by
  simp [rrfScore, listScore, scoreFrom, exLists, exDoc1, exDoc2, exDoc3, exDoc4]
  norm_num

theorem exScore2 : rrfScore exLists 60 ['d','2'] = 123/3782 := by
  simp [rrfScore, listScore, scoreFrom, exLists, exDoc1, exDoc2, exDoc3, exDoc4]
  norm_num

theorem exScore3 : rrfScore exLists 60 ['d','3'] = 1/63 := by
  simp [rrfScore, listScore, scoreFrom, exLists, exDoc1, exDoc2, exDoc3, exDoc4]
  norm_num

theorem exScore4 : rrfScore exLists 60 ['d','4'] = 1/62 := by
  simp [rrfScore, listScore, scoreFrom, exLists, exDoc1, exDoc2, exDoc3, exDoc4]
  norm_num

theorem exSorted_eval : rrfSortedKeys exLists 60 =
    [['d','2'], ['d','1'], ['d','4'], ['d','3']] := by
  rw [rrfSortedKeys, exKeys_eval]
  norm_num [List.insertionSort, List.orderedInsert, rrfRel,
    exScore1, exScore2, exScore3, exScore4, List.enum, List.enumFrom]

theorem rrfExample_eval :
    (reciprocalRankFusion exLists 60).map (·.content) =
      [['d','2'], ['d','1'], ['d','4'], ['d','3']] := by
  rw [reciprocalRankFusion, exSorted_eval]
  decide

theorem findIdx_eq_of_getElem? {α : Type} [DecidableEq α] :
    ∀ (l : List α) (i : ℕ) (x : α), l.Nodup → l[i]? = some x →
      l.findIdx (fun y => decide (y = x)) = i := by
  intro l
  induction l with
  | nil => intro i x _ h; simp at h
  | cons a t ih =>
    intro i x hnd h
    cases i with
    | zero =>
      simp only [List.getElem?_cons_zero, Option.some.injEq] at h
      subst h
      simp [List.findIdx_cons]
    | succ i =>
      simp only [List.getElem?_cons_succ] at h
      have hx : x ∈ t := List.getElem?_mem h
      have hax : a ≠ x := fun he => (List.nodup_cons.mp hnd).1 (he ▸ hx)
      have hfa : decide (a = x) = false := by simp [hax]
      simp [List.findIdx_cons, hfa, ih i x (List.nodup_cons.mp hnd).2 h]

theorem rrf_pairwise (L : List (List RDoc)) (k : ℚ) :
    List.Pairwise (fun a b : RDoc =>
      rrfScore L k b.content < rrfScore L k a.content ∨
        (rrfScore L k a.content = rrfScore L k b.content ∧
          discoveryIdx L a.content ≤ discoveryIdx L b.content))
      (reciprocalRankFusion L k) := by
  have hpw := pairwise_insertionSort_rrfRel (rrfScore L k) (rrfKeys L).enum
  have hmem : ∀ p ∈ List.insertionSort (rrfRel (rrfScore L k)) (rrfKeys L).enum,
      discoveryIdx L p.2 = p.1 := by
    intro p hp
    have hpe : p ∈ (rrfKeys L).enum := by
      rw [List.mem_insertionSort] at hp
      exact hp
    have hg : (rrfKeys L)[p.1]? = some p.2 :=
      List.mk_mem_enum_iff_getElem?.mp (by simpa using hpe)
    exact findIdx_eq_of_getElem? _ p.1 p.2 (rrfKeys_nodup L) hg
  have hpw2 : List.Pairwise (fun p q : ℕ × Str =>
      rrfScore L k q.2 < rrfScore L k p.2 ∨
        (rrfScore L k p.2 = rrfScore L k q.2 ∧
          discoveryIdx L p.2 ≤ discoveryIdx L q.2))
      (List.insertionSort (rrfRel (rrfScore L k)) (rrfKeys L).enum) := by
    apply hpw.imp_of_mem
    intro a b ha hb hab
    rcases hab with h | ⟨h, hi⟩
    · left; exact h
    · right
      exact ⟨h, by rw [hmem a ha, hmem b hb]; exact hi⟩
  have hpw3 : List.Pairwise (fun x y : Str =>
      rrfScore L k y < rrfScore L k x ∨ (rrfScore L k x = rrfScore L k y ∧
        discoveryIdx L x ≤ discoveryIdx L y)) (rrfSortedKeys L k) :=
    List.pairwise_map.mpr hpw2
  rw [← rrf_map_content L k] at hpw3
  exact List.pairwise_map.mp hpw3

/-- **C2 (amended)** — RRF fuses by summed reciprocal ranks `1/(k+rank+1)`
keyed by content, emits one document per distinct content (the first
discovered), sorted by strictly descending fused score with ties broken by
discovery order; on the spec example `L1=[d1,d2,d3]`, `L2=[d2,d4]`, `c=60`
the fused order is `d2, d1, d4, d3` — not `d2, d1, d3, d4` as the spec
states, because `1/62 > 1/63`. -/
theorem claim_C2_rrf_fusion (docLists : List (List RDoc)) (k : ℚ) :
    ((reciprocalRankFusion docLists k).map (·.content)).Nodup ∧
    ((reciprocalRankFusion docLists k).map (·.content)).Perm (rrfKeys docLists) ∧
    (∀ doc ∈ reciprocalRankFusion docLists k,
      firstDocFor docLists doc.content = some doc) ∧
    List.Pairwise (fun a b : RDoc =>
      rrfScore docLists k b.content < rrfScore docLists k a.content ∨
        (rrfScore docLists k a.content = rrfScore docLists k b.content ∧
          discoveryIdx docLists a.content ≤ discoveryIdx docLists b.content))
      (reciprocalRankFusion docLists k) ∧
    (reciprocalRankFusion exLists 60).map (·.content) =
      [['d','2'], ['d','1'], ['d','4'], ['d','3']] := by
  refine ⟨?_, ?_, ?_, rrf_pairwise docLists k, rrfExample_eval⟩
  · rw [rrf_map_content]
    exact ((rrfSortedKeys_perm docLists k).nodup_iff).mpr (rrfKeys_nodup docLists)
  · rw [rrf_map_content]
    exact rrfSortedKeys_perm docLists k
  · intro doc hdoc
    obtain ⟨c, _, hc⟩ := List.mem_filterMap.mp hdoc
    rw [firstDocFor_content hc]
    exact hc

/-- **C2 (counterexample)** — on the spec's own example the fused order is
`d2, d1, d4, d3`: the claimed order `d2, d1, d3, d4` is wrong since
`score(d4) = 1/62 > 1/63 = score(d3)`. -/
theorem claim_C2_counterexample :
    (reciprocalRankFusion exLists 60).map (·.content) =
      [['d','2'], ['d','1'], ['d','4'], ['d','3']] ∧
    ([['d','2'], ['d','1'], ['d','4'], ['d','3']] : List Str) ≠
      [['d','2'], ['d','1'], ['d','3'], ['d','4']] :=
  ⟨rrfExample_eval, by decide⟩

/-- Closed instantiation of `claim_C3_rrf_rank0_monotone` at the spec
example: inserting `d4` at rank 0 of `L1` does not lower `d4`. -/
theorem claim_C3_witness :
    (0 < exLists.length ∧ (0:ℚ) ≤ 60) ∧
    fusedRank (insertAtHead exLists 0 exDoc4) 60 exDoc4.content ≤
      fusedRank exLists 60 exDoc4.content :=
  ⟨⟨by decide, by norm_num⟩,
    claim_C3_rrf_rank0_monotone exLists exDoc4 0 60 (by decide) (by norm_num)⟩

/-- **C4 (amended)** — for every configured nonzero `retrieval.mmrLambda`,
the λ weighted into the MMR objective is `mmrLambda` clamped to `[0,1]`;
but a configured `mmrLambda` of `0` (or an absent one) is falsy in
`Number(x) || 0.5` and yields λ = 1/2, not 0.  `mmrSelect` is the λ-abstract
selection applied at exactly this λ. -/
theorem claim_C4_mmr_lambda (x : ℚ) (hx : x ≠ 0) :
    effectiveMmrLambda (some x) = max 0 (min 1 x) ∧
    effectiveMmrLambda (some 0) = 1/2 ∧
    effectiveMmrLambda none = 1/2 ∧
    (∀ (candidates : List RDoc) (k : ℕ),
      mmrSelect candidates k (queryMmrLambda (some x)) =
        mmrSelectLam candidates (max 1 k) (effectiveMmrLambda (some x))) := by
  refine ⟨?_, ?_, ?_, ?_⟩
  · simp [effectiveMmrLambda, queryMmrLambda, mmrClampLam, jsNumberOr, hx]
  · norm_num [effectiveMmrLambda, queryMmrLambda, mmrClampLam, jsNumberOr]
  · norm_num [effectiveMmrLambda, queryMmrLambda, mmrClampLam, jsNumberOr]
  · intro candidates k
    rfl

/-- Closed instantiation of `claim_C4_mmr_lambda` at `mmrLambda = 3/4`. -/
theorem claim_C4_witness :
    ((3/4 : ℚ) ≠ 0) ∧ effectiveMmrLambda (some (3/4)) = max 0 (min 1 (3/4 : ℚ)) :=
  ⟨by norm_num, (claim_C4_mmr_lambda (3/4) (by norm_num)).1⟩

/-- **C4 (counterexample)** — a configured `mmrLambda` of 0 yields λ = 1/2,
not the clamped value 0 that the claim requires. -/
theorem claim_C4_counterexample :
    effectiveMmrLambda (some 0) = 1/2 ∧ ¬ ((1/2 : ℚ) = max 0 (min 1 (0 : ℚ))) := by
  constructor
  · norm_num [effectiveMmrLambda, queryMmrLambda, mmrClampLam, jsNumberOr]
  · norm_num

theorem tokenEstimate_eq_ceil (t : Str) :
    tokenEstimate t = Nat.ceil ((t.length : ℚ) / 4) := by
  show (t.length + 3) / 4 = Nat.ceil ((t.length : ℚ) / 4)
  set n := t.length with hn
  rcases Nat.eq_zero_or_pos n with h0 | hpos
  · rw [h0]; norm_num
  · have hq1 : 1 ≤ (n + 3) / 4 := by omega
    rw [eq_comm, Nat.ceil_eq_iff (by omega)]
    constructor
    · rw [lt_div_iff (by norm_num : (0:ℚ) < 4), Nat.cast_sub hq1]
      have hZ : 4 * ((n + 3) / 4) ≤ n + 3 := by omega
      have hQ : (4:ℚ) * (((n + 3) / 4 : ℕ) : ℚ) ≤ (n : ℚ) + 3 := by exact_mod_cast hZ
      push_cast
      linarith
    · rw [div_le_iff (by norm_num : (0:ℚ) < 4)]
      have hZ : n ≤ ((n + 3) / 4) * 4 := by omega
      exact_mod_cast hZ

theorem buildGo_sum_le (qp : Option QueryPlanning) (budget : ℕ) :
    ∀ (docs : List RDoc) (used : ℕ), used ≤ budget →
      used + ((buildGo qp budget docs used).map tokenEstimate).sum ≤ budget := by
  intro docs
  induction docs with
  | nil => intro used h; simpa [buildGo]
  | cons d rest ih =>
    intro used h
    by_cases hb : budget < used + tokenEstimate (mkPart qp d)
    · simpa [buildGo, hb]
    · have hle : used + tokenEstimate (mkPart qp d) ≤ budget := not_lt.mp hb
      have := ih (used + tokenEstimate (mkPart qp d)) hle
      simp only [buildGo, if_neg hb, List.map_cons, List.sum_cons]
      omega

theorem buildGo_take (qp : Option QueryPlanning) (budget : ℕ) :
    ∀ (docs : List RDoc) (used : ℕ), ∃ n, n ≤ docs.length ∧
      buildGo qp budget docs used = (docs.take n).map (mkPart qp) ∧
      (n < docs.length →
        budget < used + (((docs.take n).map (mkPart qp)).map tokenEstimate).sum +
          tokenEstimate (mkPart qp (docs.getD n default))) := by
  intro docs
  induction docs with
  | nil =>
    intro used
    exact ⟨0, le_rfl, by simp [buildGo], by simp⟩
  | cons d rest ih =>
    intro used
    by_cases hb : budget < used + tokenEstimate (mkPart qp d)
    · refine ⟨0, Nat.zero_le _, by simp [buildGo, hb], ?_⟩
      intro _
      simpa using hb
    · obtain ⟨n, hn, heq, hstop⟩ := ih (used + tokenEstimate (mkPart qp d))
      refine ⟨n + 1, by simpa using hn, ?_, ?_⟩
      · simp [buildGo, hb, heq]
      · intro hlt
        have := hstop (by simpa using hlt)
        simp only [List.take_succ_cons, List.map_cons, List.sum_cons, List.getD_cons_succ]
        omega

/-- **C7 (amended)** — the planner takes documents in order, keeps the sum of
`⌈len/4⌉` estimates within the effective budget, and stops at the first
document whose part would push the running total over the budget (no
backfill).  The effective budget equals the configured `tokenBudget` whenever
that is nonzero; a zero (falsy) or absent configured budget is replaced by
2048, which is what breaks the claim as stated. -/
theorem claim_C7_context_budget (qp : Option QueryPlanning) (docs : List RDoc) (query : Str) :
    (∀ t : Str, tokenEstimate t = Nat.ceil ((t.length : ℚ) / 4)) ∧
    ((buildContextParts qp docs query).map tokenEstimate).sum ≤ effTokenBudget qp ∧
    (∀ Q : QueryPlanning, qp = some Q → Q.tokenBudget ≠ 0 →
      effTokenBudget qp = Q.tokenBudget) ∧
    (∃ n, n ≤ docs.length ∧
      buildContextParts qp docs query = (docs.take n).map (mkPart qp) ∧
      (n < docs.length →
        effTokenBudget qp <
          ((buildContextParts qp docs query).map tokenEstimate).sum +
            tokenEstimate (mkPart qp (docs.getD n default)))) := by
  refine ⟨tokenEstimate_eq_ceil, ?_, ?_, ?_⟩
  · simpa using buildGo_sum_le qp (effTokenBudget qp) docs 0 (Nat.zero_le _)
  · intro Q hQ hzero
    subst hQ
    simp [effTokenBudget, hzero]
  · obtain ⟨n, hn, heq, hstop⟩ := buildGo_take qp (effTokenBudget qp) docs 0
    refine ⟨n, hn, heq, ?_⟩
    intro hlt
    have := hstop hlt
    rw [buildContextParts, heq]
    omega

/-- Closed instantiation of `claim_C7_context_budget` at one document and a
present nonzero budget. -/
theorem claim_C7_witness :
    ((some ⟨10, 10⟩ : Option QueryPlanning) = some ⟨10, 10⟩ ∧ (10 : ℕ) ≠ 0) ∧
    ((buildContextParts (some ⟨10, 10⟩) [exDocC7] []).map tokenEstimate).sum ≤
      effTokenBudget (some ⟨10, 10⟩) ∧
    effTokenBudget (some ⟨10, 10⟩) = (10 : ℕ) :=
  ⟨⟨rfl, by decide⟩,
    (claim_C7_context_budget (some ⟨10, 10⟩) [exDocC7] []).2.1,
    (claim_C7_context_budget (some ⟨10, 10⟩) [exDocC7] []).2.2.1 ⟨10, 10⟩ rfl (by decide)⟩

/-- **C7 (counterexample)** — with a configured `tokenBudget` of 0 the code
falls back to 2048, selects a part, and the sum of estimates (here 2) exceeds
the configured budget 0: «sum ≤ tokenBudget» fails as stated. -/
theorem claim_C7_counterexample :
    ((buildContextParts (some ⟨0, 0⟩) [exDocC7] []).map tokenEstimate).sum = 2 ∧
    ¬ ((2 : ℕ) ≤ (0 : ℕ)) := by
  constructor
  · decide
  · decide

/-- **C10 (amended)** — for a document with no (or an empty, falsy)
`metadata.summary`, the candidate is the first 800 characters of the
content; the first 1200 characters are used instead exactly when the
candidate's token estimate exceeds `preferSummariesBelow`; in either case
at most the first 1200 characters of the content are placed — which, for
content shorter than the truncation, is the whole content. -/
theorem claim_C10_truncation (qp : Option QueryPlanning) (d : RDoc)
    (h : d.meta.summary = none ∨ d.meta.summary = some []) :
    summaryCandidate d = d.content.take 800 ∧
    (tokenEstimate (d.content.take 800) ≤ effPreferSumm qp →
      chosenText qp d = d.content.take 800) ∧
    (effPreferSumm qp < tokenEstimate (d.content.take 800) →
      chosenText qp d = d.content.take 1200) ∧
    (chosenText qp d).length ≤ 1200 := by
  have hcand : summaryCandidate d = d.content.take 800 := by
    rcases h with h | h <;> simp [summaryCandidate, h]
  refine ⟨hcand, ?_, ?_, ?_⟩
  · intro hle
    simp [chosenText, hcand, hle]
  · intro hgt
    rw [chosenText, hcand, if_neg (not_le.mpr hgt)]
  · by_cases hle : tokenEstimate (summaryCandidate d) ≤ effPreferSumm qp
    · rw [chosenText, if_pos hle, hcand]
      have := List.length_take 800 d.content
      omega
    · rw [chosenText, if_neg hle]
      have := List.length_take 1200 d.content
      omega

/-- Closed instantiation of `claim_C10_truncation`. -/
theorem claim_C10_witness :
    (exDocC10.meta.summary = none ∨ exDocC10.meta.summary = some []) ∧
    summaryCandidate exDocC10 = exDocC10.content.take 800 ∧
    (chosenText none exDocC10).length ≤ 1200 :=
  ⟨Or.inl rfl, (claim_C10_truncation none exDocC10 (Or.inl rfl)).1,
    (claim_C10_truncation none exDocC10 (Or.inl rfl)).2.2.2⟩

/-- **C10 (counterexample)** — a document shorter than the truncation limits
is placed in the context in full: the emitted part is the header followed by
the entire content, refuting «the full document content is never placed in
the context». -/
theorem claim_C10_counterexample :
    buildContextParts none [exDocC10] [] = [[' ',' ','\n'] ++ exDocC10.content] ∧
    exDocC10.content ≠ [] := by
  constructor
  · decide
  · decide

theorem extractSents_mem (terms : List Str) (maxS : ℕ) (m : DocMeta) :
    ∀ (ss out : List Str), ∀ x ∈ (extractSents terms maxS m ss out).1,
      x ∈ out ∨ ∃ s ∈ ss, 0 < sentenceScore terms s ∧ x = mkHeader m ++ '\n' :: s := by
  intro ss
  induction ss with
  | nil =>
    intro out x hx
    exact Or.inl (by simpa [extractSents] using hx)
  | cons s ss ih =>
    intro out x hx
    by_cases hsc : 0 < sentenceScore terms s
    · rw [extractSents, if_pos hsc] at hx
      by_cases hm : maxS ≤ (out ++ [mkHeader m ++ '\n' :: s]).length
      · rw [if_pos hm] at hx
        rcases List.mem_append.mp hx with h | h
        · exact Or.inl h
        · right
          exact ⟨s, by simp, hsc, by simpa using h⟩
      · rw [if_neg hm] at hx
        rcases ih _ x hx with h | ⟨s2, hs2, hsc2, he⟩
        · rcases List.mem_append.mp h with h | h
          · exact Or.inl h
          · right
            exact ⟨s, by simp, hsc, by simpa using h⟩
        · right
          exact ⟨s2, by simp [hs2], hsc2, he⟩
    · rw [extractSents, if_neg hsc] at hx
      rcases ih _ x hx with h | ⟨s2, hs2, hsc2, he⟩
      · exact Or.inl h
      · right
        exact ⟨s2, by simp [hs2], hsc2, he⟩

theorem extractDocs_mem (terms : List Str) (maxS : ℕ) :
    ∀ (ds : List RDoc) (out : List Str), ∀ x ∈ extractDocs terms maxS ds out,
      x ∈ out ∨ ∃ d ∈ ds, ∃ s ∈ splitSentences d.content,
        0 < sentenceScore terms s ∧ x = mkHeader d.meta ++ '\n' :: s := by
  intro ds
  induction ds with
  | nil =>
    intro out x hx
    exact Or.inl (by simpa [extractDocs] using hx)
  | cons d ds ih =>
    intro out x hx
    rw [extractDocs] at hx
    rcases hsp : extractSents terms maxS d.meta (splitSentences d.content) out with ⟨out2, flag⟩
    rw [hsp] at hx
    have hout2 : ∀ y, y ∈ out2 →
        y ∈ out ∨ ∃ s ∈ splitSentences d.content,
          0 < sentenceScore terms s ∧ y = mkHeader d.meta ++ '\n' :: s := by
      intro y hy
      have := extractSents_mem terms maxS d.meta (splitSentences d.content) out y
        (by rw [hsp]; exact hy)
      exact this
    cases flag with
    | true =>
      rcases hout2 x hx with h | ⟨s, hs, hsc, he⟩
      · exact Or.inl h
      · right
        exact ⟨d, by simp, s, hs, hsc, he⟩
    | false =>
      rcases ih out2 x hx with h | ⟨d2, hd2, s, hs, hsc, he⟩
      · rcases hout2 x h with h2 | ⟨s, hs, hsc, he⟩
        · exact Or.inl h2
        · right
          exact ⟨d, by simp, s, hs, hsc, he⟩
      · right
        exact ⟨d2, by simp [hd2], s, hs, hsc, he⟩

/-- **C8 (amended)** — with grounding enabled and `strict`, the final parts
are exactly the extracted snippets (the planned context parts are
discarded), and every part is a header line followed by a sentence split
out of some retrieved document's content containing a query term; with
`strict = false` the snippets are appended after the planned parts.  The
final context is the `'\n---\n'`-join of the parts, so it carries headers
and separators as well — not only sentence characters. -/
theorem claim_C8_grounding_strict (qp : Option QueryPlanning) (gc : GroundingCfg)
    (docs : List RDoc) (query : Str) (hen : gc.enabled = true) :
    (gc.strict = true →
      planContextParts qp (some gc) docs query =
        extractSnippets docs query (effMaxSnippets gc) ∧
      ∀ part ∈ planContextParts qp (some gc) docs query,
        ∃ d ∈ docs, ∃ s ∈ splitSentences d.content,
          0 < sentenceScore (queryTerms query) s ∧
            part = mkHeader d.meta ++ '\n' :: s) ∧
    (gc.strict = false →
      planContextParts qp (some gc) docs query =
        buildContextParts qp docs query ++
          extractSnippets docs query (effMaxSnippets gc)) ∧
    planContext qp (some gc) docs query =
      joinParts ctxSep (planContextParts qp (some gc) docs query) := by
  refine ⟨?_, ?_, rfl⟩
  · intro hstrict
    have heq : planContextParts qp (some gc) docs query =
        extractSnippets docs query (effMaxSnippets gc) := by
      simp [planContextParts, hen, hstrict]
    refine ⟨heq, ?_⟩
    intro part hpart
    rw [heq] at hpart
    rcases extractDocs_mem (queryTerms query) (effMaxSnippets gc) docs [] part hpart with
      h | ⟨d, hd, s, hs, hsc, he⟩
    · simp at h
    · exact ⟨d, hd, s, hs, hsc, he⟩
  · intro hstrict
    simp [planContextParts, hen, hstrict]

/-- Closed instantiation of `claim_C8_grounding_strict` on the spec's
grounding scenario. -/
theorem claim_C8_witness :
    ((⟨true, true, 2⟩ : GroundingCfg).enabled = true ∧
      (⟨true, true, 2⟩ : GroundingCfg).strict = true) ∧
    planContextParts none (some ⟨true, true, 2⟩) [exDocC8] c8query =
      extractSnippets [exDocC8] c8query (effMaxSnippets ⟨true, true, 2⟩) :=
  ⟨⟨rfl, rfl⟩,
    ((claim_C8_grounding_strict none ⟨true, true, 2⟩ [exDocC8] c8query rfl).1 rfl).1⟩

/-- **C8 (counterexample)** — in strict mode the context is
`"  \nEmployees may work remotely."`: its first characters come from the
snippet header, not from any extracted sentence, refuting «every character
of the context belongs to a sentence extracted from some retrieved
document». -/
theorem claim_C8_counterexample :
    planContext none (some ⟨true, true, 2⟩) [exDocC8] c8query =
      [' ',' ','\n'] ++ ("Employees may work remotely.").toList ∧
    allCharsFromSentencesB
      (planContext none (some ⟨true, true, 2⟩) [exDocC8] c8query)
      (splitSentences exDocC8.content) = false := by
  constructor
  · decide
  · decide

theorem sizeChars_ge (cfg : ChunkCfg) : 500 ≤ sizeChars cfg := by
  unfold sizeChars
  have h := le_max_left (500 : ℤ) (if cfg.chunkSize = 0 then 1000 else cfg.chunkSize)
  set m := max (500 : ℤ) (if cfg.chunkSize = 0 then 1000 else cfg.chunkSize)
  omega

/-- The head chunk produced from accumulator `cur` extends `cur`. -/
theorem recursiveSplitGo_head (cfg : ChunkCfg) (ent : Str → ℕ) :
    ∀ (rest : List Str) (cur : Str),
      (recursiveSplitGo cfg ent rest cur).1 = [] ∨
      ∃ hd tl t, (recursiveSplitGo cfg ent rest cur).1 = hd :: tl ∧ hd = cur ++ t := by
  intro rest
  induction rest with
  | nil =>
    intro cur
    by_cases hc : cur.isEmpty
    · left
      simp [recursiveSplitGo, hc]
    · right
      exact ⟨cur, [], [], by simp [recursiveSplitGo, hc], by simp⟩
  | cons s ss ih =>
    intro cur
    by_cases hlen : sizeChars cfg ≤ (if cur.length ≠ 0 then cur ++ ' ' :: s else s).length
    · right
      refine ⟨(if cur.length ≠ 0 then cur ++ ' ' :: s else s),
        (recursiveSplitGo cfg ent ss ((if cur.length ≠ 0 then cur ++ ' ' :: s else s).drop
          ((if cur.length ≠ 0 then cur ++ ' ' :: s else s).length -
            overlapOf cfg ent (if cur.length ≠ 0 then cur ++ ' ' :: s else s)))).1,
        (if cur.length ≠ 0 then ' ' :: s else s), ?_, ?_⟩
      · simp only [recursiveSplitGo, if_pos hlen]
      · by_cases hcur : cur.length ≠ 0
        · simp [hcur]
        · have hnil : cur = [] := by
            rw [← List.length_eq_zero]
            omega
          simp [hcur, hnil]
    · have hunfold : recursiveSplitGo cfg ent (s :: ss) cur =
          recursiveSplitGo cfg ent ss (if cur.length ≠ 0 then cur ++ ' ' :: s else s) := by
        simp only [recursiveSplitGo, if_neg hlen]
      have hih := ih (if cur.length ≠ 0 then cur ++ ' ' :: s else s)
      rcases hih with h | ⟨hd, tl, t, heq, hpre⟩
      · left
        rw [hunfold]
        exact h
      · right
        refine ⟨hd, tl, (if cur.length ≠ 0 then ' ' :: s else s) ++ t, ?_, ?_⟩
        · rw [hunfold]
          exact heq
        · rw [hpre]
          by_cases hcur : cur.length ≠ 0
          · simp [hcur]
          · have hnil : cur = [] := by
              rw [← List.length_eq_zero]
              omega
            simp [hcur, hnil]

/-- Every recorded carry: the window was emitted at `sizeChars` or more, the
carried count is exactly `min(baseOverlap + ent(window), ⌊sizeChars/3⌋)`,
the recorded window is the corresponding chunk, and the carried characters
are exactly the start of the following chunk. -/
theorem recursiveSplitGo_spec (cfg : ChunkCfg) (ent : Str → ℕ) :
    ∀ (rest : List Str) (cur : Str) (i : ℕ),
      i < (recursiveSplitGo cfg ent rest cur).2.length →
      (((recursiveSplitGo cfg ent rest cur).2.getD i default).1 =
        (recursiveSplitGo cfg ent rest cur).1.getD i default ∧
      sizeChars cfg ≤ ((recursiveSplitGo cfg ent rest cur).2.getD i default).1.length ∧
      ((recursiveSplitGo cfg ent rest cur).2.getD i default).2 =
        overlapOf cfg ent ((recursiveSplitGo cfg ent rest cur).2.getD i default).1 ∧
      (i + 1 < (recursiveSplitGo cfg ent rest cur).1.length →
        ((recursiveSplitGo cfg ent rest cur).1.getD (i + 1) default).take
            ((recursiveSplitGo cfg ent rest cur).2.getD i default).2 =
          (((recursiveSplitGo cfg ent rest cur).2.getD i default).1).drop
            ((((recursiveSplitGo cfg ent rest cur).2.getD i default).1).length -
              (((recursiveSplitGo cfg ent rest cur).2.getD i default).2)))) := by
  intro rest
  induction rest with
  | nil =>
    intro cur i hi
    simp [recursiveSplitGo] at hi
  | cons s ss ih =>
    intro cur i hi
    set cand := if cur.length ≠ 0 then cur ++ ' ' :: s else s with hcand
    by_cases hlen : sizeChars cfg ≤ cand.length
    · set carried := cand.drop (cand.length - overlapOf cfg ent cand) with hcarried
      have hunfold : recursiveSplitGo cfg ent (s :: ss) cur =
          (cand :: (recursiveSplitGo cfg ent ss carried).1,
            (cand, carried.length) :: (recursiveSplitGo cfg ent ss carried).2) := by
        simp only [recursiveSplitGo, ← hcand, if_pos hlen, ← hcarried]
      rw [hunfold] at hi ⊢
      cases i with
      | zero =>
        have hov : overlapOf cfg ent cand ≤ cand.length := by
          have h1 : overlapOf cfg ent cand ≤ sizeChars cfg / 3 := min_le_right _ _
          have h2 := sizeChars_ge cfg
          omega
        have hclen : carried.length = overlapOf cfg ent cand := by
          rw [hcarried, List.length_drop]
          omega
        refine ⟨by simp, by simpa using hlen, by simpa using hclen, ?_⟩
        intro hlt
        simp only [List.getD_cons_succ, List.getD_cons_zero]
        rcases recursiveSplitGo_head cfg ent ss carried with hnil | ⟨hd, tl, t, heq, hpre⟩
        · rw [hnil] at hlt
          simp at hlt
        · rw [heq]
          simp only [List.getD_cons_zero]
          rw [hpre, hclen]
          have : (carried ++ t).take carried.length = carried := List.take_left carried t
          rw [hclen] at this
          rw [this]
      | succ i =>
        have hi' : i < (recursiveSplitGo cfg ent ss carried).2.length := by simpa using hi
        have := ih carried i hi'
        simpa using this
    · have hunfold : recursiveSplitGo cfg ent (s :: ss) cur =
          recursiveSplitGo cfg ent ss cand := by
        simp only [recursiveSplitGo, ← hcand, if_neg hlen]
      rw [hunfold] at hi ⊢
      exact ih cand i hi

/-- **C5 (amended)** — for every configured `chunkSize`/`chunkOverlap`,
every entropy oracle and every text: each window emitted by the
`candidate.length >= sizeChars` branch carries over exactly
`min(baseOverlap + ⌊H·50⌋, ⌊sizeChars/3⌋)` trailing characters as the start
of the next window, where `sizeChars = max(500, chunkSize || 1000)` and
`baseOverlap = max(0, chunkOverlap || 200)` are the *normalized* values —
not the raw configured `chunkSize`/`chunkOverlap` that the claim uses. -/
theorem claim_C5_adaptive_overlap (cfg : ChunkCfg) (ent : Str → ℕ) (text : Str)
    (i : ℕ) (hi : i < (recursiveSplitCarries cfg ent text).length) :
    ((recursiveSplitCarries cfg ent text).getD i default).1 =
      (recursiveSplit cfg ent text).getD i default ∧
    sizeChars cfg ≤ ((recursiveSplitCarries cfg ent text).getD i default).1.length ∧
    ((recursiveSplitCarries cfg ent text).getD i default).2 =
      min (baseOverlap cfg + ent ((recursiveSplitCarries cfg ent text).getD i default).1)
        (sizeChars cfg / 3) ∧
    (i + 1 < (recursiveSplit cfg ent text).length →
      ((recursiveSplit cfg ent text).getD (i + 1) default).take
          ((recursiveSplitCarries cfg ent text).getD i default).2 =
        (((recursiveSplitCarries cfg ent text).getD i default).1).drop
          ((((recursiveSplitCarries cfg ent text).getD i default).1).length -
            ((recursiveSplitCarries cfg ent text).getD i default).2)) := by
  have h := recursiveSplitGo_spec cfg ent (splitSentences text) [] i
    (by simpa [recursiveSplitCarries] using hi)
  simpa [recursiveSplit, recursiveSplitCarries, overlapOf] using h

/-- Closed instantiation of `claim_C5_adaptive_overlap`. -/
theorem claim_C5_witness :
    (0 < (recursiveSplitCarries c5cfg entZero c5text).length) ∧
    ((recursiveSplitCarries c5cfg entZero c5text).getD 0 default).2 =
      min (baseOverlap c5cfg +
        entZero ((recursiveSplitCarries c5cfg entZero c5text).getD 0 default).1)
        (sizeChars c5cfg / 3) :=
  ⟨by decide, (claim_C5_adaptive_overlap c5cfg entZero c5text 0 (by decide)).2.2.1⟩

/-- **C5 (counterexample)** — with `chunkSize = 300` and `chunkOverlap = 200`
the emitted 600-character window carries over 166 characters
(`min(200 + 0, ⌊max(500,300)/3⌋) = 166`), not
`min(200 + 0, ⌊300/3⌋) = 100` as the claim computes from the raw
`chunkSize`. -/
theorem claim_C5_counterexample :
    recursiveSplitCarries c5cfg entZero c5text = [(List.replicate 600 '!', 166)] ∧
    (166 : ℕ) ≠ min ((200 : ℕ) + entZero (List.replicate 600 '!')) (300 / 3) := by
  constructor
  · decide
  · decide

theorem batchifyGo_nil (limit fuel : ℕ) : batchifyGo limit fuel [] = [] := by
  cases fuel <;> rfl

theorem batchifyGo_join {limit : ℕ} (hl : 0 < limit) :
    ∀ (fuel : ℕ) (l : List Str), l.length ≤ fuel → (batchifyGo limit fuel l).flatten = l := by
  intro fuel
  induction fuel with
  | zero =>
    intro l hlen
    have hnil : l = [] := List.length_eq_zero.mp (Nat.le_zero.mp hlen)
    subst hnil
    simp [batchifyGo]
  | succ fuel ih =>
    intro l hlen
    cases l with
    | nil => simp [batchifyGo]
    | cons x xs =>
      have hrec := ih ((x :: xs).drop limit)
        (by rw [List.length_drop]; simp at hlen ⊢; omega)
      simp only [batchifyGo, List.flatten_cons]
      rw [hrec, List.take_append_drop]

theorem batchifyGo_mem {limit : ℕ} (hl : 0 < limit) :
    ∀ (fuel : ℕ) (l : List Str), ∀ b ∈ batchifyGo limit fuel l, b ≠ [] ∧ b.length ≤ limit := by
  intro fuel
  induction fuel with
  | zero => intro l b hb; simp [batchifyGo] at hb
  | succ fuel ih =>
    intro l b hb
    cases l with
    | nil => simp [batchifyGo] at hb
    | cons x xs =>
      simp only [batchifyGo, List.mem_cons] at hb
      rcases hb with hb | hb
      · subst hb
        refine ⟨?_, ?_⟩
        · cases limit with
          | zero => omega
          | succ k => simp
        · rw [List.length_take]; exact Nat.min_le_left _ _
      · exact ih _ b hb

theorem batchifyGo_all {limit : ℕ} (fuel : ℕ) (l : List Str) (hne : l ≠ [])
    (hlim : l.length ≤ limit) (hfuel : l.length ≤ fuel) : batchifyGo limit fuel l = [l] := by
  rcases List.exists_cons_of_ne_nil hne with ⟨x, xs, rfl⟩
  cases fuel with
  | zero => simp at hfuel
  | succ fuel =>
    simp only [batchifyGo]
    rw [List.take_of_length_le hlim, List.drop_eq_nil_of_le hlim, batchifyGo_nil]

/-- With rate limiting off the limit is the whole list length: one batch. -/
theorem batchify_self (l : List Str) (hne : l ≠ []) : batchify l.length l = [l] :=
  batchifyGo_all l.length l hne le_rfl le_rfl

/-- The per-batch retry makes at most 3 attempts and its waits are a
prefix of `[500, 1000]`. -/
theorem retryEmbedBatch_bound (call : ℕ → Except ℕ (List Vec)) (b : List Str) :
    (retryEmbedBatch call b 2 0 500).1.countP
      (fun e => match e with | IngestEv.embedCall _ => true | _ => false) ≤ 3 ∧
    ∃ n, n ≤ 2 ∧ waitsOf (retryEmbedBatch call b 2 0 500).1 = List.take n [500, 1000] := by
  cases h0 : call 0 with
  | ok v0 =>
    refine ⟨?_, 0, by omega, ?_⟩
    · simp [retryEmbedBatch, h0, List.countP_cons, List.countP_nil]
    · simp [retryEmbedBatch, h0, waitsOf]
  | error e0 =>
    cases h1 : call 1 with
    | ok v1 =>
      refine ⟨?_, 1, by omega, ?_⟩
      · simp [retryEmbedBatch, h0, h1, List.countP_cons, List.countP_nil]
      · simp [retryEmbedBatch, h0, h1, waitsOf]
    | error e1 =>
      cases h2 : call 2 with
      | ok v2 =>
        refine ⟨?_, 2, by omega, ?_⟩
        · simp [retryEmbedBatch, h0, h1, h2, List.countP_cons, List.countP_nil]
        · simp [retryEmbedBatch, h0, h1, h2, waitsOf]
      | error e2 =>
        refine ⟨?_, 2, by omega, ?_⟩
        · simp [retryEmbedBatch, h0, h1, h2, List.countP_cons, List.countP_nil]
        · simp [retryEmbedBatch, h0, h1, h2, waitsOf]

/-- Three failing attempts: the trace is call, wait 500, call, wait 1000,
call, and the final error is surfaced.  No 2000 ms wait ever happens. -/
theorem retryEmbedBatch_allFail (call : ℕ → Except ℕ (List Vec)) (b : List Str)
    (e0 e1 e2 : ℕ) (h0 : call 0 = .error e0) (h1 : call 1 = .error e1)
    (h2 : call 2 = .error e2) :
    retryEmbedBatch call b 2 0 500 =
      ([.embedCall b, .waitMs 500, .embedCall b, .waitMs 1000, .embedCall b], .error e2) := by
  simp [retryEmbedBatch, h0, h1, h2]

theorem retryEmbedBatch_events (call : ℕ → Except ℕ (List Vec)) (b : List Str) :
    ∀ (fuel attempt delay : ℕ), ∀ ev ∈ (retryEmbedBatch call b fuel attempt delay).1,
      ev = IngestEv.embedCall b ∨ ∃ m, ev = IngestEv.waitMs m := by
  intro fuel
  induction fuel with
  | zero =>
    intro attempt delay ev hev
    simp only [retryEmbedBatch] at hev
    cases h : call attempt with
    | ok v => rw [h] at hev; simp at hev; exact Or.inl hev
    | error e => rw [h] at hev; simp at hev; exact Or.inl hev
  | succ fuel ih =>
    intro attempt delay ev hev
    simp only [retryEmbedBatch] at hev
    cases h : call attempt with
    | ok v => rw [h] at hev; simp at hev; exact Or.inl hev
    | error e =>
      rw [h] at hev
      simp at hev
      rcases hev with rfl | rfl | hev
      · exact Or.inl rfl
      · exact Or.inr ⟨delay, rfl⟩
      · exact ih _ _ ev hev

theorem embedBatches_events (oracle : ℕ → ℕ → Except ℕ (List Vec)) :
    ∀ (bs : List (List Str)) (bi : ℕ), ∀ ev ∈ (embedBatches oracle bs bi).1,
      (∃ b, ev = IngestEv.embedCall b) ∨ ∃ m, ev = IngestEv.waitMs m := by
  intro bs
  induction bs with
  | nil => intro bi ev hev; simp [embedBatches] at hev
  | cons b bs ih =>
    intro bi ev hev
    have hretry : ∀ ev2 ∈ (retryEmbedBatch (oracle bi) b 2 0 500).1,
        (∃ b2, ev2 = IngestEv.embedCall b2) ∨ ∃ m, ev2 = IngestEv.waitMs m := by
      intro ev2 hev2
      rcases retryEmbedBatch_events (oracle bi) b 2 0 500 ev2 hev2 with h | h
      · exact Or.inl ⟨b, h⟩
      · exact Or.inr h
    simp only [embedBatches] at hev
    cases hr : retryEmbedBatch (oracle bi) b 2 0 500 with
    | mk evs r =>
      rw [hr] at hev
      cases r with
      | error e =>
        simp at hev
        exact hretry ev (by rw [hr]; exact hev)
      | ok v =>
        cases hr2 : embedBatches oracle bs (bi + 1) with
        | mk evs2 r2 =>
          rw [hr2] at hev
          cases r2 with
          | ok vs =>
            simp at hev
            rcases hev with hev | hev
            · exact hretry ev (by rw [hr]; exact hev)
            · exact ih (bi + 1) ev (by rw [hr2]; exact hev)
          | error e =>
            simp at hev
            rcases hev with hev | hev
            · exact hretry ev (by rw [hr]; exact hev)
            · exact ih (bi + 1) ev (by rw [hr2]; exact hev)

theorem embedPhase_events (ing : Option IngestionCfg) (oracle : ℕ → ℕ → Except ℕ (List Vec))
    (toEmbed : List Str) : ∀ ev ∈ (embedPhase ing oracle toEmbed).1,
      (∃ b, ev = IngestEv.embedCall b) ∨ ∃ m, ev = IngestEv.waitMs m := by
  intro ev hev
  simp only [embedPhase] at hev
  split at hev
  · simp at hev
  · exact embedBatches_events oracle _ 0 ev hev

theorem retryStore_events (call : ℕ → Except ℕ Unit) (wr : IngestEv) :
    ∀ (fuel attempt delay : ℕ), ∀ ev ∈ (retryStore call wr fuel attempt delay).1,
      ev = wr ∨ ∃ m, ev = IngestEv.waitMs m := by
  intro fuel
  induction fuel with
  | zero =>
    intro attempt delay ev hev
    simp only [retryStore] at hev
    cases h : call attempt with
    | ok v => rw [h] at hev; simp at hev; exact Or.inl hev
    | error e => rw [h] at hev; simp at hev; exact Or.inl hev
  | succ fuel ih =>
    intro attempt delay ev hev
    simp only [retryStore] at hev
    cases h : call attempt with
    | ok v => rw [h] at hev; simp at hev; exact Or.inl hev
    | error e =>
      rw [h] at hev
      simp at hev
      rcases hev with rfl | rfl | hev
      · exact Or.inl rfl
      · exact Or.inr ⟨delay, rfl⟩
      · exact ih _ _ ev hev

theorem mkDocuments_length (u : Str → Str → Str) (sha : Str) (chunks : List Str)
    (embeddings : List Vec) (fp ap md5 : Str) (fs lm : ℕ) (hashes : List Str)
    (metas : ℕ → ChunkMetaParts) :
    (mkDocuments u sha chunks embeddings fp ap md5 fs lm hashes metas).length =
      chunks.length := by
  simp [mkDocuments]

theorem mkDocuments_id (u : Str → Str → Str) (sha : Str) (chunks : List Str)
    (embeddings : List Vec) (fp ap md5 : Str) (fs lm : ℕ) (hashes : List Str)
    (metas : ℕ → ChunkMetaParts) (i : ℕ) (hi : i < chunks.length) :
    ((mkDocuments u sha chunks embeddings fp ap md5 fs lm hashes metas)[i]?).map
      (fun d => d.id) =
      some (u (sha ++ ':' :: natToStr i) (u (("vectra-js").toList) uuidDNS)) := by
  simp only [mkDocuments]
  rw [List.getElem?_map, List.getElem?_enum, List.getElem?_eq_getElem hi]
  rfl

theorem getElem_enumMap_id (docs : List StoredDoc) (f : ℕ × StoredDoc → StoredDoc)
    (hf : ∀ p, (f p).id = p.2.id) (i : ℕ) :
    ((docs.enum.map f)[i]?).map (fun d => d.id) = (docs[i]?).map (fun d => d.id) := by
  rw [List.getElem?_map, List.getElem?_enum]
  cases h : docs[i]? <;> simp [hf]

theorem documentsOf_length (cfg : ClientCfg) (env : IngestEnv) (u : Str → Str → Str)
    (cache : List (Str × Vec)) (newEmbeds : List Vec) :
    (documentsOf cfg env u cache newEmbeds).length = env.chunks.length := by
  simp only [documentsOf]
  split <;> simp [mkDocuments_length]

theorem documentsOf_id (cfg : ClientCfg) (env : IngestEnv) (u : Str → Str → Str)
    (cache : List (Str × Vec)) (newEmbeds : List Vec) (i : ℕ)
    (hi : i < env.chunks.length) :
    ((documentsOf cfg env u cache newEmbeds)[i]?).map (fun d => d.id) =
      some (u (env.fileSHA256 ++ ':' :: natToStr i) (u (("vectra-js").toList) uuidDNS)) := by
  simp only [documentsOf]
  split
  · rw [getElem_enumMap_id _ (enrichDoc env.enrichOracle) (fun p => rfl)]
    exact mkDocuments_id _ _ _ _ _ _ _ _ _ _ _ i hi
  · exact mkDocuments_id _ _ _ _ _ _ _ _ _ _ _ i hi

/-- Any document batch carried by a write event in the ingestion trace is
exactly `documentsOf` for some embedding result. -/
theorem ingestFile_write_payload (cfg : ClientCfg) (env : IngestEnv)
    (u : Str → Str → Str) (cache : List (Str × Vec)) (docs : List StoredDoc)
    (hmem : IngestEv.addDocuments docs ∈ (ingestFile cfg env u cache).1 ∨
            IngestEv.upsertDocuments docs ∈ (ingestFile cfg env u cache).1) :
    ∃ newEmbeds, docs = documentsOf cfg env u cache newEmbeds := by
  by_cases hskip : effMode cfg.ingestion = .skip ∧ env.fileExists1 = true
  · rcases hskip with ⟨h1, h2⟩
    simp [ingestFile, h1, h2] at hmem
  · simp only [ingestFile] at hmem
    rw [if_neg hskip] at hmem
    have hembE := embedPhase_events cfg.ingestion env.embedOracle (toEmbedOf env cache)
    cases hemb : embedPhase cfg.ingestion env.embedOracle (toEmbedOf env cache) with
    | mk evsE r =>
      rw [hemb] at hmem hembE
      cases r with
      | error e =>
        simp at hmem
        rcases hmem with hmem | hmem <;>
          rcases hembE _ hmem with ⟨b, hb⟩ | ⟨m, hb⟩ <;> simp at hb
      | ok newEmbeds =>
        simp at hmem
        by_cases hskip2 : effMode cfg.ingestion = .skip ∧ env.fileExists2 = true
        · rw [if_pos hskip2] at hmem
          simp at hmem
          rcases hmem with hmem | hmem <;>
            rcases hembE _ hmem with ⟨b, hb⟩ | ⟨m, hb⟩ <;> simp at hb
        · rw [if_neg hskip2] at hmem
          have hstore := retryStore_events env.storeOracle
            (writeEvOf cfg env u cache newEmbeds) 2 0 500
          cases hres : retryStore env.storeOracle (writeEvOf cfg env u cache newEmbeds) 2 0 500 with
          | mk evsS rs =>
            rw [hres] at hmem hstore
            have hwrite : IngestEv.addDocuments docs ∈ evsS ∨
                IngestEv.upsertDocuments docs ∈ evsS → ∃ ne, docs = documentsOf cfg env u cache ne := by
              intro hm
              rcases hm with hm | hm <;>
                · rcases hstore _ hm with hb | ⟨m, hb⟩
                  · refine ⟨newEmbeds, ?_⟩
                    simp only [writeEvOf] at hb
                    split at hb <;> simp at hb <;> exact hb
                  · simp at hb
            cases rs with
            | ok v =>
              simp at hmem
              rcases hmem with (hmem | hmem) | hmem | hmem
              · rcases hembE _ hmem with ⟨b, hb⟩ | ⟨m, hb⟩ <;> simp at hb
              · exact hwrite (Or.inl hmem)
              · rcases hembE _ hmem with ⟨b, hb⟩ | ⟨m, hb⟩ <;> simp at hb
              · exact hwrite (Or.inr hmem)
            | error e =>
              simp at hmem
              rcases hmem with (hmem | hmem) | hmem | hmem
              · rcases hembE _ hmem with ⟨b, hb⟩ | ⟨m, hb⟩ <;> simp at hb
              · exact hwrite (Or.inl hmem)
              · rcases hembE _ hmem with ⟨b, hb⟩ | ⟨m, hb⟩ <;> simp at hb
              · exact hwrite (Or.inr hmem)

/-- **C1**: every document batch written to the vector store by
`ingestDocuments` has one document per chunk, and the document at chunk
index `i` has id `uuidv5(fileSHA256 ++ ":" ++ i, uuidv5("vectra-js",
uuidv5.DNS))` — a function of the file's SHA-256 digest and the chunk
index only, so re-ingesting identical content reproduces the ids. -/
theorem claim_C1_content_addressed_ids (cfg : ClientCfg) (env : IngestEnv)
    (u : Str → Str → Str) (cache : List (Str × Vec)) (docs : List StoredDoc)
    (hmem : IngestEv.addDocuments docs ∈ (ingestFile cfg env u cache).1 ∨
            IngestEv.upsertDocuments docs ∈ (ingestFile cfg env u cache).1) :
    docs.length = env.chunks.length ∧
    ∀ i, i < docs.length →
      (docs[i]?).map (fun d => d.id) =
        some (u (env.fileSHA256 ++ ':' :: natToStr i) (u (("vectra-js").toList) uuidDNS)) := by
  rcases ingestFile_write_payload cfg env u cache docs hmem with ⟨ne, rfl⟩
  refine ⟨documentsOf_length cfg env u cache ne, ?_⟩
  intro i hi
  rw [documentsOf_length] at hi
  exact documentsOf_id cfg env u cache ne i hi

/-- **C1** witness: a concrete one-chunk ingestion run that issues a write
event, instantiating the hypothesis of the C1 theorem. -/
theorem claim_C1_witness :
    (IngestEv.addDocuments c1docs ∈ (ingestFile {} c1env c1uuid []).1 ∨
     IngestEv.upsertDocuments c1docs ∈ (ingestFile {} c1env c1uuid []).1) ∧
    c1docs.length = c1env.chunks.length :=
  ⟨Or.inl (by decide), (claim_C1_content_addressed_ids {} c1env c1uuid [] c1docs
    (Or.inl (by decide))).1⟩

/-- **C6**: chunks missing from the embedding cache are batched with
`limit = concurrencyLimit` when rate limiting is enabled and in a single
batch of size `toEmbed.length` otherwise; each batch gets at most 3
attempts whose waits form a prefix of `[500 ms, 1000 ms]` (the third delay
of 2000 ms is computed but never awaited, because the loop throws at the
third failure); a batch whose attempts all fail surfaces the last error
and fails the whole file ingestion with it. -/
theorem claim_C6_embed_batching_retry (ing : Option IngestionCfg)
    (oracle : ℕ → ℕ → Except ℕ (List Vec)) (toEmbed : List Str) (hne : toEmbed ≠ []) :
    (embedPhase ing oracle toEmbed =
      embedBatches oracle
        (batchify (if rateLimited ing = true then effConcurrency ing else toEmbed.length)
          toEmbed) 0) ∧
    (batchify toEmbed.length toEmbed = [toEmbed]) ∧
    (∀ limit, 0 < limit →
      (batchify limit toEmbed).flatten = toEmbed ∧
      ∀ b ∈ batchify limit toEmbed, b ≠ [] ∧ b.length ≤ limit) ∧
    (∀ (call : ℕ → Except ℕ (List Vec)) (b : List Str),
      (retryEmbedBatch call b 2 0 500).1.countP
        (fun e => match e with | IngestEv.embedCall _ => true | _ => false) ≤ 3 ∧
      ∃ n, n ≤ 2 ∧ waitsOf (retryEmbedBatch call b 2 0 500).1 = List.take n [500, 1000]) ∧
    (∀ (call : ℕ → Except ℕ (List Vec)) (b : List Str) (e0 e1 e2 : ℕ),
      call 0 = .error e0 → call 1 = .error e1 → call 2 = .error e2 →
      retryEmbedBatch call b 2 0 500 =
        ([.embedCall b, .waitMs 500, .embedCall b, .waitMs 1000, .embedCall b],
          .error e2)) ∧
    (∀ (cfg : ClientCfg) (env : IngestEnv) (u : Str → Str → Str)
        (cache : List (Str × Vec)) (e : ℕ) (evsE : List IngestEv),
      ¬ (effMode cfg.ingestion = .skip ∧ env.fileExists1 = true) →
      embedPhase cfg.ingestion env.embedOracle (toEmbedOf env cache) = (evsE, .error e) →
      (ingestFile cfg env u cache).2 = .error e) := by
  refine ⟨?_, ?_, ?_, ?_, ?_, ?_⟩
  · simp only [embedPhase]
    rw [if_neg (fun h => hne (List.length_eq_zero.mp h))]
  · exact batchify_self toEmbed hne
  · intro limit hl
    exact ⟨batchifyGo_join hl toEmbed.length toEmbed le_rfl,
      fun b hb => batchifyGo_mem hl toEmbed.length toEmbed b hb⟩
  · intro call b
    exact retryEmbedBatch_bound call b
  · intro call b e0 e1 e2 h0 h1 h2
    exact retryEmbedBatch_allFail call b e0 e1 e2 h0 h1 h2
  · intro cfg env u cache e evsE hns hemb
    simp only [ingestFile]
    rw [if_neg hns, hemb]

/-- **C6** witness: three pending chunks under rate limiting with
concurrency limit 2 instantiate the C6 theorem. -/
theorem claim_C6_witness :
    c6chunks ≠ [] ∧
    embedPhase c6ing c6oracle c6chunks =
      embedBatches c6oracle
        (batchify (if rateLimited c6ing = true then effConcurrency c6ing else c6chunks.length)
          c6chunks) 0 :=
  ⟨by decide, (claim_C6_embed_batching_retry c6ing c6oracle c6chunks (by decide)).1⟩

/-- **C6** counterexample: when all three attempts fail the waits actually
performed are 500 ms and 1000 ms only — not the spec's 500/1000/2000
sequence; with at most 3 attempts there are at most 2 waits. -/
theorem claim_C6_counterexample :
    waitsOf (retryEmbedBatch c6fail [['a']] 2 0 500).1 = [500, 1000] ∧
    waitsOf (retryEmbedBatch c6fail [['a']] 2 0 500).1 ≠ [500, 1000, 2000] := by
  constructor
  · decide
  · decide

/-- **C9**: with mode `skip` and the initial `fileExists` check true,
`ingestDocuments` emits exactly start, pre-validation, the exists check
and the skipped event and succeeds; its trace contains no embedding call,
no document load, no chunking, no store write and no delete — the
embedding backend is called zero times. -/
theorem claim_C9_skip_no_side_effects (cfg : ClientCfg) (env : IngestEnv)
    (u : Str → Str → Str) (cache : List (Str × Vec))
    (hmode : effMode cfg.ingestion = .skip) (hex : env.fileExists1 = true) :
    ingestFile cfg env u cache =
      ([.ingestStart, .preValidation, .existsCheck false, .ingestSkipped], .ok ()) ∧
    ∀ ev ∈ (ingestFile cfg env u cache).1,
      (∀ b, ev ≠ IngestEv.embedCall b) ∧ ev ≠ IngestEv.loadDocument ∧
      ev ≠ IngestEv.chunkingStart ∧
      (∀ ds, ev ≠ IngestEv.addDocuments ds) ∧ (∀ ds, ev ≠ IngestEv.upsertDocuments ds) ∧
      ev ≠ IngestEv.deleteByPath := by
  have h : ingestFile cfg env u cache =
      ([.ingestStart, .preValidation, .existsCheck false, .ingestSkipped], .ok ()) := by
    simp [ingestFile, hmode, hex]
  refine ⟨h, ?_⟩
  rw [h]
  intro ev hev
  simp at hev
  rcases hev with rfl | rfl | rfl | rfl <;> simp

/-- **C9** witness: default config (mode defaults to `skip`) and an
existing file: the trace is exactly the skip trace. -/
theorem claim_C9_witness :
    (effMode ({} : ClientCfg).ingestion = IngestMode.skip ∧ c9env.fileExists1 = true) ∧
    ingestFile {} c9env c1uuid [] =
      ([.ingestStart, .preValidation, .existsCheck false, .ingestSkipped], .ok ()) :=
  ⟨⟨rfl, rfl⟩, (claim_C9_skip_no_side_effects {} c9env c1uuid [] rfl rfl).1⟩

end Vectra
